import Mathlib

/-!
Verification of the uACPI AML interpreter core (src/source/interpreter.c)
against its natural-language specification.

Shallow embedding conventions:
* machine bytes are `Nat` values, well-formedness (`< 256`) carried as
  hypotheses where a theorem needs it;
* `uacpi_u64` / `uacpi_u32` arithmetic is `Nat` with explicit `% 2^64` /
  `% 2^32` where C overflow can occur;
* memory regions are `List Nat` of bytes; an out-of-range read models
  the in-bounds C read via `getD _ 0` and is only exercised in-bounds;
* fallible C functions returning `uacpi_status` become `Except Ustatus _`;
* a value whose C computation is undefined behavior is `Option`-none.
-/

namespace UAcpiProof

/-- Status codes, mirroring `uacpi_status` as used by interpreter.c. -/
inductive Ustatus where
  | ok
  | outOfMemory
  | outOfBounds
  | badBytecode
  | notFound
  | alreadyExists
  | invalidArgument
  | unimplemented
deriving DecidableEq, Repr

/-- Read a byte of a memory region, 0 when out of range (C reads are
only performed in bounds by the interpreter; theorems carry bounds). -/
def listGetD (l : List Nat) (i : Nat) : Nat :=
  l.getD i 0

/-- Modelled from the spec: `uacpi_memcpy_zerout(dst, src, dst_size, src_size)`
(the helper lives outside interpreter.c): copy `min dst_size src_size` bytes
from `src`, zero the remaining `dst_size` bytes. Returns the `dst_size`-byte
destination region. -/
def uacpi_memcpy_zerout (src : List Nat) (dstSize srcSize : Nat) : List Nat :=
  (src.take (min dstSize srcSize)) ++ List.replicate (dstSize - min dstSize srcSize) 0

/-- Value of a little-endian byte list (used to model C memcpy of bytes
into an integer on the little-endian hosts uACPI targets). -/
def leCombine : List Nat → Nat
  | [] => 0
  | b :: rest => b + 256 * leCombine rest

/-- The `width` low-order little-endian bytes of a value (models C memcpy
out of an integer object on a little-endian host). -/
def leBytes : Nat → Nat → List Nat
  | 0, _ => []
  | w + 1, v => (v &&& 255) :: leBytes w (v >>> 8)

/-- Bit `j` of a byte region, little-endian within each byte
(bit `j` lives in byte `j / 8` at position `j % 8`). -/
def bitAt (l : List Nat) (j : Nat) : Bool :=
  (listGetD l (j / 8)).testBit (j % 8)

/-! ### Package length decoding (parse_package_length, interpreter.c:2279) -/

/-- Decoded package length: `pkgBegin` is the offset of the lead byte,
`pkgEnd = pkgBegin + size` (struct package_length). -/
structure PackageLength where
  pkgBegin : Nat
  pkgEnd : Nat
deriving DecidableEq, Repr

/-- Embedding of `parse_package_length(frame, out_pkg)`: decodes at
`code_offset` inside `code` (the method byte stream); returns the decoded
`package_length` and the advanced code offset. -/
def parse_package_length (code : List Nat) (code_offset : Nat) :
    Except Ustatus (PackageLength × Nat) :=
  let left := code.length - code_offset
  if left < 1 then .error .badBytecode
  else
    let data := listGetD code code_offset
    let marker_length := 1 + (data >>> 6)
    if left < marker_length then .error .badBytecode
    else
      let size :=
        if marker_length = 1 then data &&& 63
        else (data &&& 15) |||
          (leCombine ((code.drop (code_offset + 1)).take (marker_length - 1)) <<< 4)
      .ok (⟨code_offset, code_offset + size⟩, code_offset + marker_length)

/-- The claim's own formula for the total size: lead byte `L`, extra-byte
count `L >>> 6`; if 0 the size is the low 6 bits, otherwise low nibble of
`L` or-ed with the following little-endian bytes shifted by 4. -/
def packageSizeSpec (L : Nat) (next : List Nat) : Nat :=
  if L >>> 6 = 0 then L &&& 63
  else (L &&& 15) ||| (leCombine next <<< 4)

/-! ### Binary math (do_binary_math, interpreter.c:1497) -/

/-- The AML binary math opcodes dispatched to `do_binary_math`. -/
inductive AmlBinOp where
  | addOp | subtractOp | multiplyOp | shiftLeftOp | shiftRightOp
  | nandOp | andOp | norOp | orOp | xorOp | divideOp | modOp
deriving DecidableEq, Repr

/-- 64-bit one's complement, used for the Nand/Nor negation. -/
def not64 (n : Nat) : Nat :=
  (2 ^ 64 - 1) ^^^ (n % 2 ^ 64)

/-- Embedding of `do_binary_math(arg0, arg1, tgt0, tgt1, op)` on the two
integer operands. First component: the value written to `tgt0` (`res`),
`none` when the C computation is undefined behavior (`lhs % 0`, reached by
the deliberate Divide fall-through and by Mod with a zero divisor).
Second component: the value written to `tgt1` (only by Divide: the
quotient, 0 with a logged warning when the divisor is 0). -/
def do_binary_math (is_rev1 : Bool) (op : AmlBinOp) (lhs rhs : Nat) :
    Option Nat × Option Nat :=
  match op with
  | .addOp => (some ((lhs + rhs) % 2 ^ 64), none)
  | .subtractOp => (some ((2 ^ 64 + lhs - rhs % 2 ^ 64) % 2 ^ 64), none)
  | .multiplyOp => (some ((lhs * rhs) % 2 ^ 64), none)
  | .shiftLeftOp =>
      (some (if rhs ≤ (if is_rev1 then 31 else 63) then (lhs <<< rhs) % 2 ^ 64 else 0), none)
  | .shiftRightOp =>
      (some (if rhs ≤ (if is_rev1 then 31 else 63) then lhs >>> rhs else 0), none)
  | .nandOp => (some (not64 (rhs &&& lhs)), none)
  | .andOp => (some (rhs &&& lhs), none)
  | .norOp => (some (not64 (rhs ||| lhs)), none)
  | .orOp => (some (rhs ||| lhs), none)
  | .xorOp => (some (rhs ^^^ lhs), none)
  | .divideOp =>
      (if rhs = 0 then none else some (lhs % rhs),
       some (if 0 < rhs then lhs / rhs else 0))
  | .modOp => (if rhs = 0 then none else some (lhs % rhs), none)

/-! ### Buffer op (handle_buffer, interpreter.c:483) -/

/-- Embedding of `handle_buffer`: `method_size`/`code` come from the frame,
`pkg` is the decoded package length item, `aml_offset` the recorded AML pc
of the initializer bytes, `declared_size` the evaluated size operand
(a u64). Returns the built buffer contents. -/
def handle_buffer (method_size : Nat) (code : List Nat) (pkg : PackageLength)
    (aml_offset : Nat) (declared_size : Nat) : Except Ustatus (List Nat) :=
  let init_size := pkg.pkgEnd - aml_offset
  if pkg.pkgEnd > method_size then .error .badBytecode
  else if declared_size > 0xE0000000 then .error .badBytecode
  else if declared_size = 0 then .error .badBytecode
  else
    let buffer_size := declared_size % 2 ^ 32
    if init_size > buffer_size then .error .badBytecode
    else .ok (uacpi_memcpy_zerout (code.drop aml_offset) buffer_size init_size)

/-! ### The typed object model (uacpi_object, shared with types.h) -/

/-- The five reference kinds (`uacpi_reference_kind`, stored in
`object->flags` of a Reference object). -/
inductive RefKind where
  | refOf | named | arg | localKind | pkgIndex
deriving DecidableEq, Repr

/-- Object kind tags (`uacpi_object_type`) for the kinds the verified
claims exercise. -/
inductive ObjType where
  | uninitialized | integer | string | buffer | package
  | bufferIndex | bufferField | reference | debug
deriving DecidableEq, Repr

/-- Value-level embedding of `uacpi_object` for the object kinds the
verified claims exercise. A String carries its bytes including the
trailing NUL (its `buffer->size` counts the NUL); a Buffer carries its
data bytes; a BufferIndex shares a buffer and holds a byte index; a
BufferField records `{backing, bit_index, bit_length, force_buffer}`. -/
inductive UObj where
  | uninitialized
  | integer (v : Nat)
  | string (bytes : List Nat)
  | buffer (data : List Nat)
  | package (count : Nat)
  | bufferIndex (data : List Nat) (idx : Nat)
  | bufferField (backing : List Nat) (bitIndex bitLength : Nat) (forceBuffer : Bool)
  | reference (kind : RefKind) (inner : UObj)
  | debug
deriving DecidableEq, Repr

/-- The `type` tag of an object. -/
def objType : UObj → ObjType
  | .uninitialized => .uninitialized
  | .integer _ => .integer
  | .string _ => .string
  | .buffer _ => .buffer
  | .package _ => .package
  | .bufferIndex _ _ => .bufferIndex
  | .bufferField _ _ _ _ => .bufferField
  | .reference _ _ => .reference
  | .debug => .debug

/-- The `inner_object` field of a Reference (only read on references). -/
def innerObject : UObj → UObj
  | .reference _ i => i
  | x => x

/-- Modelled from the spec: `uacpi_unwrap_internal_reference` (defined
outside interpreter.c) returns the object wrapped by an internal
reference, i.e. one dereference step on a Reference, identity otherwise. -/
def uacpi_unwrap_internal_reference : UObj → UObj
  | .reference _ i => i
  | x => x

/-- Embedding of `reference_unwind(obj)` (interpreter.c:1258): walks the
reference chain and returns the parent of the bottom-most non-reference,
i.e. the last Reference of a chain; a non-reference input is returned
as is (the C loop returns `parent == obj` on the first iteration). -/
def reference_unwind : UObj → UObj
  | .reference k inner =>
      match inner with
      | .reference k2 i2 => reference_unwind (.reference k2 i2)
      | _ => .reference k inner
  | x => x

/-- The Integer value (`ones()`) used for logical truth, sized by revision. -/
def ones (is_rev1 : Bool) : Nat :=
  if is_rev1 then 0xFFFFFFFF else 0xFFFFFFFFFFFFFFFF

/-- The size in bytes of an AML Integer (`sizeof_int()`),
4 when revision is 1 and 8 otherwise. -/
def sizeof_int (is_rev1 : Bool) : Nat :=
  if is_rev1 then 4 else 8

/-! ### RefOf / DerefOf (handle_ref_or_deref_of, interpreter.c:1439) -/

/-- Embedding of the `RefOfOp` branch of `handle_ref_or_deref_of`:
the destination becomes a Reference (kind RefOf, the zero flag value of
the freshly allocated object) to the operand. -/
def handle_ref_of (src : UObj) : UObj :=
  .reference .refOf src

/-- Embedding of the `DerefOfOp` branch of `handle_ref_or_deref_of`:
a Reference operand is unwound to the bottom-most non-reference; if the
(possibly unwound) operand is a BufferIndex the result is an Integer
holding the byte at the index (zero-extended by memcpy_zerout); a
non-reference non-BufferIndex operand is a warned bad-bytecode error;
otherwise the unwound object is shallow-copied out. -/
def handle_deref_of (src : UObj) : Except Ustatus UObj :=
  match src with
  | .reference k inner =>
      match innerObject (reference_unwind (.reference k inner)) with
      | .bufferIndex data idx => .ok (.integer (listGetD data idx))
      | b => .ok b
  | .bufferIndex data idx => .ok (.integer (listGetD data idx))
  | _ => .error .badBytecode

/-! ### Object storage and the implicit-cast store
(get_object_storage interpreter.c:692, object_assign_with_implicit_cast
interpreter.c:846, write_buffer_index interpreter.c:834) -/

/-- Embedding of `get_object_storage(obj, out_buf, include_null)`:
the raw storage of an Integer (its `sizeof_int` little-endian bytes),
String (bytes, optionally without the trailing NUL) or Buffer (data);
References are invalid arguments, other kinds bad bytecode. -/
def get_object_storage (is_rev1 : Bool) (obj : UObj) (include_null : Bool) :
    Except Ustatus (List Nat) :=
  match obj with
  | .integer v => .ok (leBytes (sizeof_int is_rev1) v)
  | .string bytes =>
      if bytes.length ≠ 0 ∧ include_null = false then
        .ok (bytes.take (bytes.length - 1))
      else .ok bytes
  | .buffer data => .ok data
  | .reference _ _ => .error .invalidArgument
  | _ => .error .badBytecode

/-- Byte size of a buffer field (`buffer_field_byte_size`,
`UACPI_ALIGN_UP(bit_length, 8) / 8`). -/
def buffer_field_byte_size (bit_length : Nat) : Nat :=
  (bit_length + 7) / 8

/-- Overwrite `region.length` bytes of `mem` starting at byte `off`
(C memcpy into the middle of a buffer, used in bounds). -/
def listOverwrite (mem : List Nat) (off : Nat) (region : List Nat) : List Nat :=
  mem.take off ++ region ++ mem.drop (off + region.length)

/-- The source-bit gathering block of one `do_rw_misaligned_buffer_field`
iteration (interpreter.c:751-766): up to 8 bits of the source span at its
own shift, truncated at the span tail; the u8 `bits` variable's
truncation on the or-assignment is the explicit `&&& 255`. -/
def misaligned_gather_bits (src : List Nat) (srcShift srcIdx srcCount : Nat) : Nat :=
  if srcCount ≠ 0 then
    let b0 := listGetD src srcIdx >>> srcShift
    let b1 :=
      if srcShift ≠ 0 ∧ 8 - srcShift < srcCount then
        (b0 ||| (listGetD src (srcIdx + 1) <<< (8 - srcShift))) &&& 255
      else b0
    if srcCount < 8 then b1 &&& ((1 <<< srcCount) - 1) else b1
  else 0

/-- The destination-write block of one `do_rw_misaligned_buffer_field`
iteration (interpreter.c:768-775): or-mask the gathered `bits` into the
destination byte at `dstShift`, and spill the overflowing bits into the
following byte when the shifted window crosses it; `dst_mask` is the C
u16, the stored bytes are truncated to u8 by `&&& 255`. -/
def misaligned_write_one (dst : List Nat) (dstIdx dstShift dstCount bits : Nat) :
    List Nat :=
  let dstMask := (if dstCount < 8 then (1 <<< dstCount) - 1 else 255) <<< dstShift
  let d0 := listGetD dst dstIdx
  let dst1 := dst.set dstIdx
    (((d0 &&& (65535 ^^^ dstMask)) ||| ((bits <<< dstShift) &&& dstMask)) &&& 255)
  if dstShift ≠ 0 ∧ 8 - dstShift < dstCount then
    let m2 := dstMask >>> 8
    let d1 := listGetD dst1 (dstIdx + 1)
    dst1.set (dstIdx + 1)
      (((d1 &&& (255 ^^^ m2)) ||| ((bits >>> (8 - dstShift)) &&& m2)) &&& 255)
  else dst1

/-- Embedding of the loop of `do_rw_misaligned_buffer_field(dst, src)`
(interpreter.c:733). `dstShift`/`srcShift` are the fixed low three bits of
the span indices; `dstIdx`/`srcIdx` the current byte cursors;
`dstCount`/`srcCount` the remaining bit counts. Each iteration gathers up
to 8 source bits and masks them into one destination byte (plus the
spill into the following byte), then both spans advance one byte. -/
def misaligned_rw (src : List Nat) (dstShift srcShift : Nat)
    (dstCount : Nat) (dst : List Nat) (dstIdx srcIdx srcCount : Nat) : List Nat :=
  if dstCount = 0 then dst
  else
      let bits := misaligned_gather_bits src srcShift srcIdx srcCount
      let srcIdx2 := if srcCount < 8 then srcIdx else srcIdx + 1
      let srcCount2 := if srcCount < 8 then 0 else srcCount - 8
      misaligned_rw src dstShift srcShift
        (if 8 < dstCount then dstCount - 8 else 0)
        (misaligned_write_one dst dstIdx dstShift dstCount bits)
        (dstIdx + 1) srcIdx2 srcCount2
termination_by dstCount
decreasing_by simp_wf; split <;> omega

/-- Embedding of `write_buffer_field(field, src_buf)` (interpreter.c:800):
byte-aligned fields memcpy `ceil(bit_length/8)` bytes (zero-extending a
short source) and then restore the tail bits of the final byte beyond
`bit_length` by or-ing them back; misaligned fields use the generic
bit-span copy with the source span starting at bit 0 of the source
storage. Returns the updated backing. -/
def write_buffer_field (backing : List Nat) (bit_index bit_length : Nat)
    (src_buf : List Nat) : List Nat :=
  if bit_index % 8 = 0 then
    let off := bit_index / 8
    let count := buffer_field_byte_size bit_length
    let last_byte := listGetD backing (off + count - 1)
    let tail_shift := bit_length % 8
    let mem := listOverwrite backing off (uacpi_memcpy_zerout src_buf count src_buf.length)
    if tail_shift ≠ 0 then
      mem.set (off + count - 1)
        (listGetD mem (off + count - 1) ||| ((last_byte >>> tail_shift) <<< tail_shift))
    else mem
  else
    misaligned_rw src_buf (bit_index % 8) 0 bit_length backing (bit_index / 8) 0
      (src_buf.length * 8)

/-- Embedding of `do_read_buffer_field(field, dst)` (interpreter.c:2435):
byte-aligned fields memcpy `ceil(bit_length/8)` bytes and mask the final
byte down to `bit_length % 8` bits; misaligned fields run the bit-span
copy into a zeroed destination (`ceil(bit_length/8)` calloc bytes) whose
span starts at bit 0. -/
def do_read_buffer_field (backing : List Nat) (bit_index bit_length : Nat) :
    List Nat :=
  let count := buffer_field_byte_size bit_length
  if bit_index % 8 = 0 then
    let bytes := (backing.drop (bit_index / 8)).take count
    if bit_length % 8 ≠ 0 then
      bytes.set (count - 1) (listGetD bytes (count - 1) &&& ((1 <<< (bit_length % 8)) - 1))
    else bytes
  else
    misaligned_rw backing 0 (bit_index % 8) (count * 8) (List.replicate count 0) 0
      (bit_index / 8) bit_length

/-- Embedding of `object_assign_with_implicit_cast(dst, src)`
(interpreter.c:846): read the source storage, then copy it into the
destination storage capped at the destination size with zero padding
(Integer / String / Buffer), or perform the bit-level / single-byte
write for BufferField / BufferIndex destinations. Returns the updated
destination object. An Integer destination's storage is only
`sizeof_int` bytes, so at revision 1 the upper four bytes of
the u64 are left untouched. -/
def object_assign_with_implicit_cast (is_rev1 : Bool) (dst src : UObj) :
    Except Ustatus UObj :=
  match get_object_storage is_rev1 src false with
  | .error e => .error e
  | .ok src_buf =>
    match dst with
    | .integer v =>
        let low := leCombine (uacpi_memcpy_zerout src_buf (sizeof_int is_rev1) src_buf.length)
        .ok (.integer (if is_rev1 then ((v >>> 32) <<< 32) ||| low else low))
    | .string bytes =>
        let len := if bytes.length ≠ 0 then bytes.length - 1 else 0
        .ok (.string (uacpi_memcpy_zerout src_buf len src_buf.length ++ bytes.drop len))
    | .buffer data =>
        .ok (.buffer (uacpi_memcpy_zerout src_buf data.length src_buf.length))
    | .bufferField backing bi bl fb =>
        .ok (.bufferField (write_buffer_field backing bi bl src_buf) bi bl fb)
    | .bufferIndex data idx =>
        .ok (.bufferIndex (data.set idx (listGetD (uacpi_memcpy_zerout src_buf 1 src_buf.length) 0)) idx)
    | _ => .error .badBytecode

/-! ### Store to a reference (store_to_reference, interpreter.c:1365) -/

/-- The destination-resolution phase of `store_to_reference` (the switch
on `dst->flags`): yields the resolved parent reference (its kind and its
inner object, the store destination) together with the `overwrite` flag
as computed before the Uninitialized check. -/
def store_resolve : RefKind → UObj → Except Ustatus (RefKind × UObj × Bool)
  | .localKind, inner =>
      match inner with
      | .reference k2 i2 =>
          match reference_unwind (.reference k2 i2) with
          | .reference k3 i3 => .ok (k3, i3, false)
          | x => .ok (k2, innerObject x, false)
      | _ => .ok (.localKind, inner, true)
  | .arg, inner =>
      match inner with
      | .reference k2 i2 =>
          match reference_unwind (.reference k2 i2) with
          | .reference k3 i3 => .ok (k3, i3, true)
          | x => .ok (k2, innerObject x, true)
      | _ => .ok (.arg, inner, true)
  | .pkgIndex, inner =>
      match inner with
      | .reference k2 i2 =>
          match reference_unwind (.reference k2 i2) with
          | .reference k3 i3 => .ok (k3, i3, false)
          | x => .ok (k2, innerObject x, false)
      | _ => .ok (.pkgIndex, inner, true)
  | .named, inner =>
      match reference_unwind (.reference .named inner) with
      | .reference k3 i3 => .ok (k3, i3, false)
      | x => .ok (.named, innerObject x, false)
  | .refOf, _ => .error .invalidArgument

/-- Embedding of `store_to_reference(dst, src)`: resolve the destination
parent per the reference kind ( Local/Arg/PkgIndex follow a wrapped
reference chain, Named unwinds its own chain, RefOf is invalid), then
force `overwrite` whenever the resolved destination object is
Uninitialized; overwrite replaces the parent's child with a deep copy of
the unwrapped source, otherwise the source is stored with implicit cast.
Returns the resolved parent reference with its updated inner object. -/
def store_to_reference (is_rev1 : Bool) (dst src : UObj) :
    Except Ustatus UObj :=
  match dst with
  | .reference kind inner =>
      match store_resolve kind inner with
      | .error e => .error e
      | .ok (k2, dstObj, ow0) =>
          let src_obj := uacpi_unwrap_internal_reference src
          let ow := ow0 || (objType dstObj == .uninitialized)
          if ow then .ok (.reference k2 src_obj)
          else
            match object_assign_with_implicit_cast is_rev1 dstObj src_obj with
            | .error e => .error e
            | .ok newObj => .ok (.reference k2 newObj)
  | _ => .error .invalidArgument

/-! ### Binary logic (handle_binary_logic interpreter.c:2226,
handle_logical_equality interpreter.c:2173,
handle_logical_less_or_greater interpreter.c:2194) -/

/-- The three typed comparison opcodes of `handle_binary_logic`. -/
inductive CmpOp where
  | lEqual | lLess | lGreater
deriving DecidableEq, Repr

/-- A comparison operand together with the value a C read of the
`integer` union member yields on it: for an Integer object that read is
the integer value, for any other kind it is whatever bytes the union
currently holds, which the embedding keeps as the explicit `rawInt`
input instead of guessing. -/
structure LogicOperand where
  obj : UObj
  rawInt : Nat

/-- The C read `o->integer` on an operand object. -/
def obj_integer_read (o : LogicOperand) : Nat :=
  match o.obj with
  | .integer v => v
  | _ => o.rawInt

/-- Embedding of `handle_logical_equality(lhs, rhs)`: String/Buffer
compare size then content, Integers compare values, and every other
operand kind leaves `res` at its initial FALSE. The caller guarantees
equal types, so only same-kind pairs are reachable. -/
def handle_logical_equality (lhs rhs : LogicOperand) : Bool :=
  match lhs.obj, rhs.obj with
  | .string a, .string b => a.length == b.length && (a.length == 0 || a == b)
  | .buffer a, .buffer b => a.length == b.length && (a.length == 0 || a == b)
  | .integer x, .integer y => x == y
  | _, _ => false

/-- C `uacpi_memcmp(a, b, n)` as a three-way comparison of the first `n`
bytes (calls are in bounds, running off a list compares equal). -/
def uacpi_memcmp : List Nat → List Nat → Nat → Ordering
  | _, _, 0 => .eq
  | x :: xs, y :: ys, n + 1 =>
      if x < y then .lt else if y < x then .gt else uacpi_memcmp xs ys n
  | _, _, _ + 1 => .eq

/-- Three-way String/Buffer comparison of
`handle_logical_less_or_greater`: memcmp over the shorter length, then
the length tiebreak. -/
def buffer_cmp (a b : List Nat) : Ordering :=
  match uacpi_memcmp a b (min a.length b.length) with
  | .eq => if a.length < b.length then .lt else if b.length < a.length then .gt else .eq
  | r => r

/-- Embedding of `handle_logical_less_or_greater(op, lhs, rhs)`:
String/Buffer operands compare content with a length tiebreak; every
other operand kind falls to the trailing integer comparison, which reads
the `integer` union member of both operands. -/
def handle_logical_less_or_greater (op : CmpOp) (lhs rhs : LogicOperand) : Bool :=
  match lhs.obj, rhs.obj with
  | .string a, .string b =>
      if op = .lLess then buffer_cmp a b = .lt else buffer_cmp a b = .gt
  | .buffer a, .buffer b =>
      if op = .lLess then buffer_cmp a b = .lt else buffer_cmp a b = .gt
  | _, _ =>
      if op = .lLess then obj_integer_read lhs < obj_integer_read rhs
      else obj_integer_read rhs < obj_integer_read lhs

/-- Embedding of the LEqual/LLess/LGreater arm of `handle_binary_logic`:
differing operand types are bad bytecode; otherwise the boolean result
becomes 0 or the revision-sized all-ones value. -/
def handle_binary_logic_cmp (is_rev1 : Bool) (op : CmpOp)
    (lhs rhs : LogicOperand) : Except Ustatus Nat :=
  if objType lhs.obj ≠ objType rhs.obj then .error .badBytecode
  else
    let res :=
      match op with
      | .lEqual => handle_logical_equality lhs rhs
      | _ => handle_logical_less_or_greater op lhs rhs
    .ok (if res then ones is_rev1 else 0)

/-! ### ToInteger / ToBuffer (handle_to interpreter.c:1858,
object_to_integer interpreter.c:1710) -/

/-- Embedding of `object_to_integer(obj, max_buffer_bytes)` on a Buffer:
`min(max_buffer_bytes, buffer->size)` little-endian bytes, zero-extended
into the u64 by memcpy_zerout. -/
def object_to_integer_of_buffer (data : List Nat) (max_buffer_bytes : Nat) : Nat :=
  leCombine (data.take (min max_buffer_bytes data.length))

/-- The `ToIntegerOp` arm of `handle_to` on a Buffer operand: the first
8 bytes regardless of revision (the NT comment at interpreter.c:1869). -/
def handle_to_integer_of_buffer (buf : List Nat) : Nat :=
  object_to_integer_of_buffer buf 8

/-- The `ToBufferOp` arm of `handle_to`: the source storage (with the
NUL of a String included), or the null buffer when that storage is
empty. -/
def handle_to_buffer (is_rev1 : Bool) (src : UObj) : Except Ustatus (List Nat) :=
  match get_object_storage is_rev1 src true with
  | .error e => .error e
  | .ok buf => if buf.length = 0 then .ok [] else .ok buf

/-! ### Name parsing and resolution (parse_nameseg interpreter.c:172,
resolve_name_string interpreter.c:315) -/

/-- A 4-character name segment (`uacpi_object_name`). -/
abbrev Seg := List Nat

/-- A namespace node, identified by its path of segments from the root
(the root itself is `[]`; a node's parent link is `dropLast`). -/
abbrev Path := List Seg

/-- The namespace contents: the set of installed node paths.
`uacpi_namespace_node_find` is lookup of `parent ++ [name]` in it. -/
abbrev NsSet := List Path

/-- Modelled from the spec: namespace service `find(parent, name)`
(the namespace tree lives outside interpreter.c). -/
def uacpi_namespace_node_find (ns : NsSet) (parent : Path) (name : Seg) :
    Option Path :=
  if (parent ++ [name]) ∈ ns then some (parent ++ [name]) else none

/-- A valid NameSeg character per parse_nameseg:
underscore, digit or capital letter. -/
def is_name_char (c : Nat) : Bool :=
  c == 95 || (decide (48 ≤ c) && decide (c ≤ 57)) || (decide (65 ≤ c) && decide (c ≤ 90))

/-- Embedding of `parse_nameseg(cursor, out_name)`: the next four bytes,
each a valid name character, else bad bytecode. -/
def parse_nameseg (cursor : List Nat) : Except Ustatus Seg :=
  let cs := cursor.take 4
  if cs.length = 4 ∧ cs.all is_name_char then .ok cs else .error .badBytecode

/-- RootChar, ParentPrefixChar, DualNamePrefix, MultiNamePrefix,
NullName byte values. -/
def rootChar : Nat := 0x5C

/-- ParentPrefixChar, the caret. -/
def parentChar : Nat := 0x5E

/-- UACPI_DUAL_NAME_PREFIX. -/
def dualNameMarker : Nat := 0x2E

/-- UACPI_MULTI_NAME_PREFIX. -/
def multiNameMarker : Nat := 0x2F

/-- UACPI_NULL_NAME. -/
def nullNameByte : Nat := 0x00

/-- The leading root/parent loop of `resolve_name_string`
(interpreter.c:331): a backslash (rejected right after a caret) resets
the current node to the root and stops, carets climb one parent each
(rejected at the root), any other byte stops the loop; consuming any of
these characters clears `just_one_nameseg`. Returns the current node,
the unconsumed bytes and the `just_one_nameseg` flag. -/
def resolve_head_loop (cur : Path) (bytes : List Nat) (prevChar : Nat)
    (justOne : Bool) : Except Ustatus (Path × List Nat × Bool) :=
  match bytes with
  | [] => .error .badBytecode
  | c :: rest =>
      if c = rootChar then
        if prevChar = parentChar then .error .badBytecode
        else .ok ([], rest, false)
      else if c = parentChar then
        if cur = [] then .error .badBytecode
        else resolve_head_loop cur.dropLast rest c false
      else .ok (cur, c :: rest, justOne)

/-- The upward-search while loop of `resolve_name_string`
(interpreter.c:432): while the lookup missed and the last-searched scope
is not the root, retry the lookup one scope higher. -/
def upward_search (ns : NsSet) (name : Seg) (found : Option Path)
    (parent : Path) : Option Path :=
  match found with
  | some n => some n
  | none =>
      if parent = [] then none
      else upward_search ns name
        (uacpi_namespace_node_find ns parent.dropLast name) parent.dropLast
termination_by parent.length
decreasing_by
  simp_wf
  rcases parent with _ | ⟨a, l⟩
  · simp_all
  · simp [List.length_dropLast]

/-- The two `resolve_behavior` modes. -/
inductive ResolveBehavior where
  | createLastNameseg
  | failIfDoesntExist
deriving DecidableEq, Repr

/-- Outcome of the nameseg walk of `resolve_name_string`: an `earlyExit`
is a C `return` that skips the `out:` label (so the code offset is not
advanced); `through` reaches `out:` with the given status and node. -/
inductive SegLoopOut where
  | earlyExit (st : Ustatus)
  | through (st : Ustatus) (node : Option Path)
deriving DecidableEq, Repr

/-- The nameseg walk of `resolve_name_string` (interpreter.c:409): parse
each segment, look it up under the walked-to parent; in create mode the
final segment must not exist and is allocated under its parent (linked,
not installed); in find mode a single-segment name retries missing
lookups through the ancestors; a missing node otherwise stops the walk
with NotFound. -/
def seg_loop (ns : NsSet) (behavior : ResolveBehavior) (justOne : Bool)
    (cur : Path) (bytes : List Nat) (namesegs : Nat) : SegLoopOut :=
  if namesegs = 0 then .through .ok (some cur)
  else
      match parse_nameseg bytes with
      | .error e => .earlyExit e
      | .ok name =>
          let parent := cur
          let found := uacpi_namespace_node_find ns parent name
          match behavior with
          | .createLastNameseg =>
              if namesegs = 1 then
                match found with
                | some _ => .earlyExit .alreadyExists
                | none =>
                    seg_loop ns behavior justOne (parent ++ [name]) (bytes.drop 4)
                      (namesegs - 1)
              else
                match found with
                | some nd => seg_loop ns behavior justOne nd (bytes.drop 4) (namesegs - 1)
                | none => .through .notFound none
          | .failIfDoesntExist =>
              match (if justOne then upward_search ns name found parent else found) with
              | some nd => seg_loop ns behavior justOne nd (bytes.drop 4) (namesegs - 1)
              | none => .through .notFound none
termination_by namesegs
decreasing_by all_goals simp_wf; omega

/-- Result of `resolve_name_string`: the status, the node written to
`*out_node` (absent on an early return) and the number of stream bytes
the frame's code offset advanced by (absent when the C code returns
before the `out:` label). -/
structure ResolveOut where
  status : Ustatus
  node : Option Path
  consumed : Option Nat
deriving DecidableEq, Repr

/-- The tail of `resolve_name_string` after the segment count is known:
check `namesegs * 4` bytes remain, run the walk, and advance the code
offset past the whole name string whenever `out:` is reached. -/
def finish_segs (ns : NsSet) (behavior : ResolveBehavior) (cur : Path)
    (justOne : Bool) (bytes : List Nat) (namesegs consumed : Nat) : ResolveOut :=
  if namesegs * 4 > bytes.length then ⟨.badBytecode, none, none⟩
  else
    match seg_loop ns behavior justOne cur bytes namesegs with
    | .earlyExit st => ⟨st, none, none⟩
    | .through st node => ⟨st, node, some (consumed + namesegs * 4)⟩

/-- The marker switch of `resolve_name_string` (interpreter.c:375): a
dual marker means two segments, a multi marker reads a count byte, the
null name is rejected in create mode and for a bare single-segment
stream, and any other byte is assumed to start a single segment; the
dual and multi markers clear `just_one_nameseg`. -/
def resolve_after_head (ns : NsSet) (behavior : ResolveBehavior) (cur : Path)
    (bytes : List Nat) (justOne : Bool) (consumed : Nat) : ResolveOut :=
  match bytes with
  | [] => ⟨.badBytecode, none, none⟩
  | b :: rest =>
      if b = dualNameMarker then
        finish_segs ns behavior cur false rest 2 (consumed + 1)
      else if b = multiNameMarker then
        match rest with
        | [] => ⟨.badBytecode, none, none⟩
        | n :: rest2 => finish_segs ns behavior cur false rest2 n (consumed + 2)
      else if b = nullNameByte then
        if behavior = .createLastNameseg ∨ justOne = true then ⟨.badBytecode, none, none⟩
        else ⟨.ok, some cur, some (consumed + 1)⟩
      else finish_segs ns behavior cur justOne (b :: rest) 1 consumed

/-- Embedding of `resolve_name_string(frame, behavior, out_node)`
(interpreter.c:315), starting from the frame's current scope with the
name string at the head of `stream`. -/
def resolve_name_string (ns : NsSet) (scope : Path) (behavior : ResolveBehavior)
    (stream : List Nat) : ResolveOut :=
  match resolve_head_loop scope stream 0 true with
  | .error e => ⟨e, none, none⟩
  | .ok (cur, bytes, justOne) =>
      resolve_after_head ns behavior cur bytes justOne (stream.length - bytes.length)

/-- Modelled from the spec, for the refinement half of the upward-search
claim: the spec's upward search, "on a miss at the current scope, retry
the lookup against each ancestor up to the root". -/
def spec_upward_lookup (ns : NsSet) (scope : Path) (name : Seg) : Option Path :=
  match uacpi_namespace_node_find ns scope name with
  | some n => some n
  | none => if scope = [] then none else spec_upward_lookup ns scope.dropLast name
termination_by scope.length
decreasing_by
  simp_wf
  rcases scope with _ | ⟨a, l⟩
  · simp_all
  · simp [List.length_dropLast]

/-- Modelled from the spec, for the refinement half of the upward-search
claim: the marker switch with upward search disabled ("walk each
segment; find-or-fail each"), identical to `resolve_after_head` except
that the segment walk never climbs. -/
def resolve_after_head_noclimb (ns : NsSet) (behavior : ResolveBehavior)
    (cur : Path) (bytes : List Nat) (justOne : Bool) (consumed : Nat) : ResolveOut :=
  match bytes with
  | [] => ⟨.badBytecode, none, none⟩
  | b :: rest =>
      if b = dualNameMarker then
        finish_segs ns behavior cur false rest 2 (consumed + 1)
      else if b = multiNameMarker then
        match rest with
        | [] => ⟨.badBytecode, none, none⟩
        | n :: rest2 => finish_segs ns behavior cur false rest2 n (consumed + 2)
      else if b = nullNameByte then
        if behavior = .createLastNameseg ∨ justOne = true then ⟨.badBytecode, none, none⟩
        else ⟨.ok, some cur, some (consumed + 1)⟩
      else finish_segs ns behavior cur false (b :: rest) 1 consumed

/-- Modelled from the spec: name resolution with upward search disabled,
the comparison point for the no-climb half of the upward-search claim. -/
def resolve_name_string_noclimb (ns : NsSet) (scope : Path)
    (behavior : ResolveBehavior) (stream : List Nat) : ResolveOut :=
  match resolve_head_loop scope stream 0 true with
  | .error e => ⟨e, none, none⟩
  | .ok (cur, bytes, justOne) =>
      resolve_after_head_noclimb ns behavior cur bytes justOne (stream.length - bytes.length)

/-! ### Method return plumbing (method_get_ret_target interpreter.c:1014,
method_get_ret_object interpreter.c:1042, handle_return interpreter.c:2683,
uacpi_execute_control_method interpreter.c:3886) -/

/-- An op context, reduced to the object of its last item (the slot a
method call's return value lands in). `none` models a null object. -/
structure OpCtxM where
  lastItem : Option UObj

/-- A call frame, reduced to its pending op contexts. -/
structure FrameM where
  pendingOps : List OpCtxM

/-- The execution context, reduced to the state the return plumbing
reads and writes: the call stack (index 0 is the bottom frame) and
`ctx->ret`, which is `none` exactly when the caller of
`uacpi_execute_control_method` passed a null out-pointer (the
Uninitialized return object is then never allocated). -/
structure ExecCtxM where
  callStack : List FrameM
  ret : Option UObj

/-- Embedding of `method_get_ret_target(ctx, out_operand)`: with more
than one frame on the stack the target is the last item object of the
caller frame's innermost pending op (no pending op: the value is
discarded); for the bottom frame the status is NotFound. -/
def method_get_ret_target (ctx : ExecCtxM) : Except Ustatus (Option UObj) :=
  let depth := ctx.callStack.length
  if depth > 1 then
    let frame := ctx.callStack.getD (depth - 2) ⟨[]⟩
    match frame.pendingOps.getLast? with
    | none => .ok none
    | some opc => .ok opc.lastItem
  else .error .notFound

/-- The effect of `uacpi_object_assign(unwrap(tgt), retval, DEEP_COPY)`
on a caller item: an internal reference receives the value in its inner
object, anything else is replaced by the value. -/
def assign_into_target (tgt retval : UObj) : UObj :=
  match tgt with
  | .reference k _ => .reference k retval
  | _ => retval

/-- Write the returned value into the caller frame's awaiting item
(the `.ok (some tgt)` leg of `method_get_ret_object`). -/
def set_caller_ret (ctx : ExecCtxM) (retval : UObj) : ExecCtxM :=
  let depth := ctx.callStack.length
  let frame := ctx.callStack.getD (depth - 2) ⟨[]⟩
  let newOps := frame.pendingOps.set (frame.pendingOps.length - 1)
    (match frame.pendingOps.getLast? with
     | some opc => ⟨opc.lastItem.map (fun t => assign_into_target t retval)⟩
     | none => ⟨none⟩)
  { ctx with callStack := ctx.callStack.set (depth - 2) ⟨newOps⟩ }

/-- Embedding of `handle_return(ctx)` given the Return operand value:
`method_get_ret_object` resolves the destination — the caller's awaiting
item when a caller frame exists (a null item discards the value), and
`ctx->ret` for the bottom frame (null exactly when no return value was
requested, in which case nothing is written) — and the value is
deep-copied into it. Setting the frame's code offset to the method size
is outside this reduced state. -/
def handle_return (ctx : ExecCtxM) (retval : UObj) : ExecCtxM :=
  match method_get_ret_target ctx with
  | .error _ =>
      match ctx.ret with
      | none => ctx
      | some _ => { ctx with ret := some retval }
  | .ok none => ctx
  | .ok (some _) => set_caller_ret ctx retval

/-- Embedding of the `out:` epilogue of `uacpi_execute_control_method`
(interpreter.c:3960): the caller's slot is assigned exactly when a
return object was requested and `ctx->ret` is no longer Uninitialized;
the status `st` does not influence the condition. Returns the value
written to the slot, `none` when the slot is left untouched. -/
def execute_epilogue (st : Ustatus) (ctx : ExecCtxM) : Option UObj :=
  match ctx.ret with
  | some r => if objType r ≠ .uninitialized then some r else none
  | none => none

/-! ## Theorems -/

/-- leBytes always yields exactly its width in bytes. -/
theorem leBytes_length (w : Nat) : ∀ v, (leBytes w v).length = w := by
  induction w with
  | zero => intro v; simp [leBytes]
  | succ w ih => intro v; simp [leBytes, ih]

/-- Little-endian bytes of a little-endian value: reading back the bytes
of `leCombine l` recovers `l`, truncated or zero-padded to the width. -/
theorem leBytes_leCombine (w : Nat) :
    ∀ l : List Nat, (∀ b ∈ l, b < 256) →
      leBytes w (leCombine l) = l.take w ++ List.replicate (w - l.length) 0 := by
  induction w with
  | zero => intro l _; simp [leBytes]
  | succ w ih =>
      intro l hl
      cases l with
      | nil =>
          have h0 : leBytes w 0 = List.replicate w 0 := by
            have h := ih [] (by simp)
            simpa [leCombine] using h
          simp [leCombine, leBytes, h0, List.replicate_succ]
      | cons b bs =>
          have hb : b < 256 := hl b (by simp)
          have hbs : ∀ x ∈ bs, x < 256 := fun x hx => hl x (by simp [hx])
          have hand : (b + 256 * leCombine bs) &&& 255 = b := by
            have h := Nat.and_pow_two_sub_one_eq_mod (b + 256 * leCombine bs) 8
            norm_num at h
            rw [h]
            omega
          have hshift : (b + 256 * leCombine bs) >>> 8 = leCombine bs := by
            rw [Nat.shiftRight_eq_div_pow]
            norm_num
            omega
          simp [leCombine, leBytes, hand, hshift, ih bs hbs]

/-- C6: package length decoding is bit-exact: with the lead byte at
offset `off`, the extra-byte count is its top two bits; too few
remaining bytes for the encoding fail as bad bytecode, and otherwise the
result records `pkgBegin = off`, `pkgEnd = off + size` with `size` given
by the claim's formula (6 low bits of the lead byte when no extra bytes,
else its low nibble or-ed with the little-endian extra bytes shifted
left by 4), the code offset advancing past the length bytes. -/
theorem parse_package_length_spec (code : List Nat) (off : Nat) :
    (code.length - off < 1 + (listGetD code off >>> 6) →
       parse_package_length code off = .error .badBytecode) ∧
    (1 + (listGetD code off >>> 6) ≤ code.length - off →
       parse_package_length code off =
         .ok (⟨off, off + packageSizeSpec (listGetD code off)
                ((code.drop (off + 1)).take (listGetD code off >>> 6))⟩,
              off + (1 + (listGetD code off >>> 6)))) := by
  constructor
  · intro h
    simp only [parse_package_length]
    by_cases h1 : code.length - off < 1
    · rw [if_pos h1]
    · rw [if_neg h1, if_pos (by omega)]
  · intro h
    simp only [parse_package_length]
    rw [if_neg (by omega), if_neg (by omega)]
    by_cases h0 : listGetD code off >>> 6 = 0
    · simp [h0, packageSizeSpec]
    · rw [if_neg (by omega)]
      simp only [packageSizeSpec, if_neg h0, Nat.add_sub_cancel_left]

/-- Witness for the package length theorem at a two-byte encoding. -/
theorem parse_package_length_spec_witness :
    parse_package_length [0x42, 9, 9] 0 = .ok (⟨0, 146⟩, 2) := by
  have h := (parse_package_length_spec [0x42, 9, 9] 0).2 (by decide)
  exact h.trans (by rfl)

/-- C3: the Divide handler at the failing input (lhs 5, divisor 0)
writes quotient 0 to the second target after logging a warning, but the
remainder target receives the fall-through computation `lhs % 0`, which
is undefined behavior in C (modeled `none`) rather than 0; with a
nonzero divisor the remainder target gets `lhs % rhs` and the quotient
target `lhs / rhs` as the claim states. -/
theorem do_binary_math_divide_by_zero :
    do_binary_math false .divideOp 5 0 = (none, some 0) ∧
    (∀ lhs rhs : Nat, 0 < rhs →
       do_binary_math false .divideOp lhs rhs = (some (lhs % rhs), some (lhs / rhs))) := by
  constructor
  · decide
  · intro lhs rhs h
    simp [do_binary_math, h, Nat.pos_iff_ne_zero.mp h]

/-- Witness for the Divide theorem at divisor 2. -/
theorem do_binary_math_divide_witness :
    do_binary_math false .divideOp 7 2 = (some 1, some 3) :=
  (do_binary_math_divide_by_zero.2 7 2 (by decide)).trans (by decide)

/-- C2 counterexample: a declared buffer size strictly above the
claim's 0x6000_0000 threshold (but not above the source's 0xE0000000)
builds the buffer successfully instead of failing as bad bytecode. -/
theorem handle_buffer_beyond_claimed_threshold :
    handle_buffer 2 [0x11, 0x22] ⟨0, 1⟩ 1 0x60000001 =
      .ok (uacpi_memcpy_zerout [0x22] (0x60000001 % 2 ^ 32) 0) ∧
    0x60000000 < 0x60000001 := by
  constructor
  · rfl
  · norm_num

/-- C2 as amended: the Buffer op fails as bad bytecode exactly when the
package end exceeds the method size, the declared size exceeds
0xE0000000 or equals 0, or the in-stream initializer length exceeds the
(u32-truncated) declared size; on success the buffer holds exactly
`declared_size` bytes, the first `init_len` from the stream and the rest
zero. -/
theorem handle_buffer_spec (m : Nat) (code : List Nat) (b e off ds : Nat)
    (hcode : code.length = m) (hoff : off ≤ e) :
    (handle_buffer m code ⟨b, e⟩ off ds = .error .badBytecode ↔
       (m < e ∨ 0xE0000000 < ds ∨ ds = 0 ∨ ds % 2 ^ 32 < e - off)) ∧
    (e ≤ m → ds ≤ 0xE0000000 → ds ≠ 0 → e - off ≤ ds % 2 ^ 32 →
       handle_buffer m code ⟨b, e⟩ off ds =
         .ok ((code.drop off).take (e - off) ++
              List.replicate (ds % 2 ^ 32 - (e - off)) 0)) ∧
    (∀ out, handle_buffer m code ⟨b, e⟩ off ds = .ok out →
       out.length = ds % 2 ^ 32) := by
  refine ⟨?_, ?_, ?_⟩
  · simp only [handle_buffer]
    constructor
    · intro h
      by_cases h1 : e > m
      · left; omega
      · rw [if_neg h1] at h
        by_cases h2 : ds > 0xE0000000
        · right; left; omega
        · rw [if_neg h2] at h
          by_cases h3 : ds = 0
          · right; right; left; exact h3
          · rw [if_neg h3] at h
            by_cases h4 : e - off > ds % 2 ^ 32
            · right; right; right; omega
            · rw [if_neg h4] at h
              exact absurd h (by simp)
    · intro h
      by_cases h1 : e > m
      · rw [if_pos h1]
      · rw [if_neg h1]
        by_cases h2 : ds > 0xE0000000
        · rw [if_pos h2]
        · rw [if_neg h2]
          by_cases h3 : ds = 0
          · rw [if_pos h3]
          · rw [if_neg h3]
            rw [if_pos (by omega)]
  · intro h1 h2 h3 h4
    simp only [handle_buffer]
    rw [if_neg (by omega), if_neg (by omega), if_neg h3, if_neg (by omega)]
    simp only [uacpi_memcpy_zerout, Nat.min_eq_right h4]
  · intro out hout
    simp only [handle_buffer] at hout
    by_cases h1 : e > m
    · rw [if_pos h1] at hout; exact absurd hout (by simp)
    · rw [if_neg h1] at hout
      by_cases h2 : ds > 0xE0000000
      · rw [if_pos h2] at hout; exact absurd hout (by simp)
      · rw [if_neg h2] at hout
        by_cases h3 : ds = 0
        · rw [if_pos h3] at hout; exact absurd hout (by simp)
        · rw [if_neg h3] at hout
          by_cases h4 : e - off > ds % 2 ^ 32
          · rw [if_pos h4] at hout; exact absurd hout (by simp)
          · rw [if_neg h4] at hout
            have hq : out = uacpi_memcpy_zerout (code.drop off) (ds % 2 ^ 32) (e - off) := by
              injection hout with hh
              exact hh.symm
            subst hq
            simp only [uacpi_memcpy_zerout, List.length_append, List.length_take,
              List.length_replicate, List.length_drop]
            omega

/-- Witness for the amended Buffer theorem at a concrete build. -/
theorem handle_buffer_spec_witness :
    handle_buffer 4 [1, 2, 3, 4] ⟨0, 3⟩ 1 5 = .ok [2, 3, 0, 0, 0] := by
  have h := (handle_buffer_spec 4 [1, 2, 3, 4] 0 3 1 5 (by decide) (by decide)).2.1
    (by decide) (by decide) (by decide) (by decide)
  exact h.trans (by rfl)

/-- C7 counterexample: at revision 1 the round trip
ToBuffer(ToInteger(buf)) yields a 4-byte buffer (`sizeof_int` bytes),
not `buf` zero-padded to 8 bytes. -/
theorem to_buffer_to_integer_rev1_cex :
    handle_to_buffer true (.integer (handle_to_integer_of_buffer [0x11])) =
      .ok [0x11, 0, 0, 0] ∧
    ([0x11, 0, 0, 0] : List Nat) ≠ [0x11] ++ List.replicate 7 0 := by
  constructor
  · rfl
  · decide

/-- C7 as amended: for a buffer of at most 8 bytes,
ToBuffer(ToInteger(buf)) yields `buf` truncated or zero-padded to
`sizeof_int` bytes — 8 bytes (the claim's padding) whenever the revision
is not 1, but 4 bytes at revision 1; ToInteger itself always reads the
first 8 bytes (the whole buffer here), independent of revision. -/
theorem to_buffer_of_to_integer (is_rev1 : Bool) (buf : List Nat)
    (hlen : buf.length ≤ 8) (hwf : ∀ b ∈ buf, b < 256) :
    handle_to_buffer is_rev1 (.integer (handle_to_integer_of_buffer buf)) =
      .ok (buf.take (sizeof_int is_rev1) ++
           List.replicate (sizeof_int is_rev1 - buf.length) 0) ∧
    handle_to_integer_of_buffer buf = leCombine buf := by
  have hval : handle_to_integer_of_buffer buf = leCombine buf := by
    simp [handle_to_integer_of_buffer, object_to_integer_of_buffer,
      Nat.min_eq_right hlen, List.take_of_length_le (le_refl buf.length)]
  refine ⟨?_, hval⟩
  have hbytes : leBytes (sizeof_int is_rev1) (leCombine buf) =
      buf.take (sizeof_int is_rev1) ++
      List.replicate (sizeof_int is_rev1 - buf.length) 0 :=
    leBytes_leCombine (sizeof_int is_rev1) buf hwf
  have hlen2 : (leBytes (sizeof_int is_rev1) (leCombine buf)).length ≠ 0 := by
    rw [leBytes_length]
    cases is_rev1 <;> simp [sizeof_int]
  simp only [handle_to_buffer, get_object_storage, hval]
  rw [if_neg hlen2, hbytes]

/-- Witness for the ToBuffer-of-ToInteger theorem at revision 2 and a
two-byte buffer: the 8-byte zero padding of the claim. -/
theorem to_buffer_of_to_integer_witness :
    handle_to_buffer false (.integer (handle_to_integer_of_buffer [1, 2])) =
      .ok [1, 2, 0, 0, 0, 0, 0, 0] ∧
    handle_to_integer_of_buffer [1, 2] = 513 := by
  have h := to_buffer_of_to_integer false [1, 2] (by decide) (by decide)
  exact ⟨h.1.trans (by rfl), h.2.trans (by decide)⟩

/-- C5: for every non-Reference object x, DerefOf(RefOf(x)) yields x
back — RefOf wraps x in a RefOf reference, DerefOf unwinds the chain to
the bottom-most non-reference — except that a BufferIndex is turned into
an Integer holding the byte at its index. -/
theorem deref_of_ref_of (x : UObj) (hx : objType x ≠ .reference) :
    handle_deref_of (handle_ref_of x) =
      .ok (match x with
           | .bufferIndex data idx => .integer (listGetD data idx)
           | y => y) := by
  cases x <;> first | rfl | exact absurd rfl hx

/-- Witness for the DerefOf-of-RefOf theorem on an Integer and the
BufferIndex special case. -/
theorem deref_of_ref_of_witness :
    handle_deref_of (handle_ref_of (.integer 7)) = .ok (.integer 7) ∧
    handle_deref_of (handle_ref_of (.bufferIndex [0x11, 0x22] 1)) =
      .ok (.integer 0x22) := by
  constructor
  · exact (deref_of_ref_of (.integer 7) (by decide)).trans (by rfl)
  · exact (deref_of_ref_of (.bufferIndex [0x11, 0x22] 1) (by decide)).trans (by rfl)

/-- C9: a Store through a reference of any kind whose resolved
destination object is Uninitialized performs a full overwrite: the
resolved parent's child becomes a deep copy of the (unwrapped) source,
with no implicit cast. -/
theorem store_to_uninitialized_overwrites (is_rev1 : Bool) (kind k2 : RefKind)
    (inner src : UObj) (ow : Bool)
    (hres : store_resolve kind inner = .ok (k2, .uninitialized, ow)) :
    store_to_reference is_rev1 (.reference kind inner) src =
      .ok (.reference k2 (uacpi_unwrap_internal_reference src)) := by
  simp [store_to_reference, hres, objType]

/-- Witness for the store-overwrite theorem: a Named reference holding
Uninitialized receives a wholesale copy of the stored Integer. -/
theorem store_to_uninitialized_overwrites_witness :
    store_to_reference false (.reference .named .uninitialized) (.integer 5) =
      .ok (.reference .named (.integer 5)) :=
  (store_to_uninitialized_overwrites false .named .named .uninitialized
    (.integer 5) false (by rfl)).trans (by rfl)

/-- C10 counterexample: LLess on two same-typed Package operands does
not produce 0 — it succeeds and compares the raw `integer` union reads
of the two objects (indeterminate pointer bytes); with reads 1 and 2 the
result is the all-ones truth value. -/
theorem lless_on_packages_not_zero :
    handle_binary_logic_cmp false .lLess ⟨.package 0, 1⟩ ⟨.package 0, 2⟩ =
      .ok 0xFFFFFFFFFFFFFFFF ∧ (0xFFFFFFFFFFFFFFFF : Nat) ≠ 0 := by
  constructor
  · rfl
  · decide

/-- C10 as amended: LEqual/LLess/LGreater raise the bad-bytecode error
exactly when the operand types differ; with equal types that are none of
Integer, String, Buffer, LEqual succeeds with result 0, while
LLess/LGreater succeed without error but compare the raw `integer`
union reads of the operands, so their result is not guaranteed to be 0. -/
theorem binary_logic_cmp_spec (is_rev1 : Bool) (op : CmpOp)
    (lhs rhs : LogicOperand) :
    (handle_binary_logic_cmp is_rev1 op lhs rhs = .error .badBytecode ↔
       objType lhs.obj ≠ objType rhs.obj) ∧
    (objType lhs.obj = objType rhs.obj →
     objType lhs.obj ≠ .integer → objType lhs.obj ≠ .string →
     objType lhs.obj ≠ .buffer →
       (op = .lEqual → handle_binary_logic_cmp is_rev1 op lhs rhs = .ok 0) ∧
       (op ≠ .lEqual → handle_binary_logic_cmp is_rev1 op lhs rhs =
          .ok (if (if op = .lLess
                   then obj_integer_read lhs < obj_integer_read rhs
                   else obj_integer_read rhs < obj_integer_read lhs)
               then ones is_rev1 else 0))) := by
  constructor
  · constructor
    · intro h
      by_contra hne
      simp only [handle_binary_logic_cmp, ne_eq, not_not] at h hne
      rw [if_neg (by simp [hne])] at h
      exact absurd h (by simp)
    · intro h
      simp only [handle_binary_logic_cmp]
      rw [if_pos h]
  · intro heq hi hs hb
    constructor
    · intro hop
      subst hop
      have hfalse : handle_logical_equality lhs rhs = false := by
        rcases hl : lhs.obj <;> rcases hr : rhs.obj <;>
          simp_all [handle_logical_equality, objType]
      simp only [handle_binary_logic_cmp]
      rw [if_neg (by simp [heq])]
      simp [hfalse]
    · intro hop
      have hcmp : handle_logical_less_or_greater op lhs rhs =
          (if (if op = .lLess
               then obj_integer_read lhs < obj_integer_read rhs
               else obj_integer_read rhs < obj_integer_read lhs)
           then true else false) := by
        rcases hl : lhs.obj <;> rcases hr : rhs.obj <;>
          simp_all [handle_logical_less_or_greater, objType]
      simp only [handle_binary_logic_cmp]
      rw [if_neg (by simp [heq])]
      rcases op with _ | _ | _
      · exact absurd rfl hop
      · simp only [hcmp]
        split <;> simp
      · simp only [hcmp]
        split <;> simp

/-- Witness for the binary-logic theorem: mismatched types error, and
two Packages compare as claimed. -/
theorem binary_logic_cmp_spec_witness :
    handle_binary_logic_cmp false .lEqual ⟨.package 0, 1⟩ ⟨.integer 2, 0⟩ =
      .error .badBytecode ∧
    handle_binary_logic_cmp false .lEqual ⟨.package 0, 1⟩ ⟨.package 0, 2⟩ =
      .ok 0 := by
  constructor
  · exact ((binary_logic_cmp_spec false .lEqual ⟨.package 0, 1⟩
      ⟨.integer 2, 0⟩).1).mpr (by decide)
  · exact ((binary_logic_cmp_spec false .lEqual ⟨.package 0, 1⟩
      ⟨.package 0, 2⟩).2 (by decide) (by decide) (by decide) (by decide)).1 rfl

/-- C8: the return-slot protocol of uacpi_execute_control_method — a
Return executed in a nested frame never writes `ctx->ret` (the value
goes to the caller frame's awaiting item or is discarded), so with no
completed bottom-frame Return `ctx->ret` stays Uninitialized; the `out:`
epilogue leaves the caller's slot untouched whenever `ctx->ret` is
absent or still Uninitialized — for every status, in particular every
error after unwind — and any value it does write is non-Uninitialized. -/
theorem execute_return_slot_protocol :
    (∀ (ctx : ExecCtxM) (retval : UObj), 2 ≤ ctx.callStack.length →
       (handle_return ctx retval).ret = ctx.ret) ∧
    (∀ (st : Ustatus) (ctx : ExecCtxM),
       ctx.ret = none ∨ ctx.ret = some .uninitialized →
       execute_epilogue st ctx = none) ∧
    (∀ (st : Ustatus) (ctx : ExecCtxM) (v : UObj),
       execute_epilogue st ctx = some v → objType v ≠ .uninitialized) := by
  refine ⟨?_, ?_, ?_⟩
  · intro ctx retval hdepth
    simp only [handle_return, method_get_ret_target]
    rw [if_pos (by omega)]
    rcases h : (ctx.callStack.getD (ctx.callStack.length - 2) ⟨[]⟩).pendingOps.getLast? with
      _ | opc
    · simp [h]
    · rcases hi : opc.lastItem with _ | tgt <;> simp [h, hi, set_caller_ret]
  · intro st ctx h
    rcases h with h | h <;> simp [execute_epilogue, h, objType]
  · intro st ctx v h
    simp only [execute_epilogue] at h
    rcases hr : ctx.ret with _ | r
    · rw [hr] at h; exact absurd h (by simp)
    · rw [hr] at h
      have h2 : (if objType r ≠ ObjType.uninitialized then some r else none) = some v := h
      by_cases ht : objType r ≠ .uninitialized
      · rw [if_pos ht] at h2
        injection h2 with h2
        subst h2
        exact ht
      · rw [if_neg ht] at h2
        exact absurd h2 (by simp)

/-- Witness for the return-slot theorem: a nested return leaves
`ctx->ret` untouched; an errored context with an Uninitialized return
object writes nothing; a defined return object is non-Uninitialized. -/
theorem execute_return_slot_protocol_witness :
    (handle_return ⟨[⟨[⟨some (.integer 0)⟩]⟩, ⟨[]⟩], some .uninitialized⟩
       (.integer 3)).ret = some .uninitialized ∧
    execute_epilogue .badBytecode ⟨[], some .uninitialized⟩ = none ∧
    objType (.integer 3) ≠ .uninitialized := by
  refine ⟨?_, ?_, ?_⟩
  · exact execute_return_slot_protocol.1
      ⟨[⟨[⟨some (.integer 0)⟩]⟩, ⟨[]⟩], some .uninitialized⟩ (.integer 3) (by decide)
  · exact execute_return_slot_protocol.2.1 .badBytecode
      ⟨[], some .uninitialized⟩ (Or.inr rfl)
  · exact execute_return_slot_protocol.2.2 .ok ⟨[], some (.integer 3)⟩
      (.integer 3) (by rfl)

/-- The upward-search loop started from a fresh lookup at a scope
computes exactly the spec's ancestor-chain lookup. -/
theorem upward_search_eq_spec (ns : NsSet) (name : Seg) :
    ∀ (n : Nat) (p : Path), p.length ≤ n →
      upward_search ns name (uacpi_namespace_node_find ns p name) p =
        spec_upward_lookup ns p name := by
  intro n
  induction n with
  | zero =>
      intro p hp
      have hp0 : p = [] := by
        cases p with
        | nil => rfl
        | cons a l => simp at hp
      subst hp0
      rw [upward_search.eq_def, spec_upward_lookup.eq_def]
      rcases hf : uacpi_namespace_node_find ns [] name with _ | nd <;> simp [hf]
  | succ n ih =>
      intro p hp
      rw [upward_search.eq_def, spec_upward_lookup.eq_def]
      rcases hf : uacpi_namespace_node_find ns p name with _ | nd
      · simp only [hf]
        by_cases hp0 : p = []
        · simp [hp0]
        · rw [if_neg hp0, if_neg hp0]
          apply ih
          cases p with
          | nil => exact absurd rfl hp0
          | cons a l => simp [List.length_dropLast] at hp ⊢; omega
      · simp [hf]

/-- Once `just_one_nameseg` is cleared, the root/parent loop never sets
it again. -/
theorem resolve_head_loop_false :
    ∀ (bytes : List Nat) (cur : Path) (prev : Nat) (c : Path)
      (rest : List Nat) (j : Bool),
      resolve_head_loop cur bytes prev false = .ok (c, rest, j) → j = false := by
  intro bytes
  induction bytes with
  | nil => intro cur prev c rest j h; exact absurd h (by simp [resolve_head_loop])
  | cons b bs ih =>
      intro cur prev c rest j h
      simp only [resolve_head_loop] at h
      by_cases hb : b = rootChar
      · rw [if_pos hb] at h
        by_cases hprev : prev = parentChar
        · rw [if_pos hprev] at h; exact absurd h (by simp)
        · rw [if_neg hprev] at h
          injection h with h
          injection h with _ h
          injection h with _ h
          exact h.symm
      · rw [if_neg hb] at h
        by_cases hb2 : b = parentChar
        · rw [if_pos hb2] at h
          by_cases hcur : cur = []
          · rw [if_pos hcur] at h; exact absurd h (by simp)
          · rw [if_neg hcur] at h
            exact ih cur.dropLast b c rest j h
        · rw [if_neg hb2] at h
          injection h with h
          injection h with _ h
          injection h with _ h
          exact h.symm

/-- With `just_one_nameseg` cleared, the marker switch and segment walk
never climb: the source resolution coincides with the spec-modelled
no-climb resolution. -/
theorem resolve_after_head_of_false (ns : NsSet) (behavior : ResolveBehavior)
    (cur : Path) (bytes : List Nat) (consumed : Nat) :
    resolve_after_head ns behavior cur bytes false consumed =
      resolve_after_head_noclimb ns behavior cur bytes false consumed := by
  cases bytes with
  | nil => rfl
  | cons b rest =>
      simp only [resolve_after_head, resolve_after_head_noclimb]

/-- A dual or multi marker forces the no-climb walk regardless of the
incoming `just_one_nameseg` flag. -/
theorem resolve_after_head_of_marker (ns : NsSet) (behavior : ResolveBehavior)
    (cur : Path) (b : Nat) (rest : List Nat) (j : Bool) (consumed : Nat)
    (hb : b = dualNameMarker ∨ b = multiNameMarker) :
    resolve_after_head ns behavior cur (b :: rest) j consumed =
      resolve_after_head_noclimb ns behavior cur (b :: rest) j consumed := by
  rcases hb with hb | hb
  · subst hb
    simp [resolve_after_head, resolve_after_head_noclimb]
  · subst hb
    simp [resolve_after_head, resolve_after_head_noclimb, dualNameMarker,
      multiNameMarker]

/-- C1: in find-existing mode, upward search applies iff the name string
is a single NameSeg. First half: a stream opening with a root or parent
character or a dual/multi marker resolves exactly like the
no-climb walker — a miss at any segment yields NotFound without
climbing. Second half: a stream opening with a name character (a single
bare NameSeg) resolves by the spec's ancestor-chain lookup up to the
root, consuming the four segment bytes. -/
theorem resolve_upward_search_iff_single_seg :
    (∀ (ns : NsSet) (scope : Path) (b : Nat) (rest : List Nat),
       (b = rootChar ∨ b = parentChar ∨ b = dualNameMarker ∨ b = multiNameMarker) →
       resolve_name_string ns scope .failIfDoesntExist (b :: rest) =
         resolve_name_string_noclimb ns scope .failIfDoesntExist (b :: rest)) ∧
    (∀ (ns : NsSet) (scope : Path) (c : Nat) (rest : List Nat),
       is_name_char c →
       resolve_name_string ns scope .failIfDoesntExist (c :: rest) =
         match parse_nameseg (c :: rest) with
         | .error e => ⟨e, none, none⟩
         | .ok name =>
             match spec_upward_lookup ns scope name with
             | some nd => ⟨.ok, some nd, some 4⟩
             | none => ⟨.notFound, none, some 4⟩) := by
  constructor
  · intro ns scope b rest hb
    simp only [resolve_name_string, resolve_name_string_noclimb]
    rcases hb with hb | hb | hb
    · subst hb
      rw [resolve_head_loop]
      rw [if_pos rfl]
      rw [if_neg (by decide)]
      exact resolve_after_head_of_false ns _ [] rest _
    · subst hb
      rw [resolve_head_loop]
      rw [if_neg (by decide)]
      rw [if_pos rfl]
      by_cases hcur : scope = []
      · rw [if_pos hcur]
      · rw [if_neg hcur]
        rcases hrl : resolve_head_loop scope.dropLast rest parentChar false with e | ⟨cur, bytes, j⟩
        · rfl
        · have hj : j = false := resolve_head_loop_false rest scope.dropLast parentChar cur bytes j hrl
          subst hj
          exact resolve_after_head_of_false ns _ cur bytes _
    · rcases hb with hb | hb <;> subst hb <;>
      · rw [resolve_head_loop]
        rw [if_neg (by decide)]
        rw [if_neg (by decide)]
        exact resolve_after_head_of_marker ns _ scope _ rest true _ (by simp [dualNameMarker, multiNameMarker])
  · intro ns scope c rest hc
    have hcp : c = 95 ∨ (48 ≤ c ∧ c ≤ 57) ∨ (65 ≤ c ∧ c ≤ 90) := by
      simp [is_name_char] at hc
      omega
    simp only [resolve_name_string]
    rw [resolve_head_loop]
    rw [if_neg (by simp [rootChar]; omega)]
    rw [if_neg (by simp [parentChar]; omega)]
    simp only [resolve_after_head]
    rw [if_neg (by simp [dualNameMarker]; omega)]
    rw [if_neg (by simp [multiNameMarker]; omega)]
    rw [if_neg (by simp [nullNameByte]; omega)]
    simp only [finish_segs, Nat.sub_self]
    by_cases hlen : 1 * 4 > (c :: rest).length
    · rw [if_pos hlen]
      have hp : parse_nameseg (c :: rest) = .error .badBytecode := by
        simp only [parse_nameseg]
        rw [if_neg ?hne]
        case hne =>
          intro hand
          have := hand.1
          simp [List.length_take] at this
          simp at hlen
          omega
      rw [hp]
    · rw [if_neg hlen]
      rw [seg_loop.eq_def]
      rw [if_neg (by decide)]
      rcases hp : parse_nameseg (c :: rest) with e | name
      · simp [hp]
      · simp only [hp, if_pos rfl]
        rw [upward_search_eq_spec ns name scope.length scope (le_refl _)]
        rcases hs : spec_upward_lookup ns scope name with _ | nd
        · simp [hs]
        · rw [show (1 : Nat) - 1 = 0 from rfl]
          simp only [hs, if_true]
          rw [seg_loop.eq_def]
          simp

/-- Witness for the upward-search theorem: a rooted dual-seg miss fails
without climbing, and a bare single seg climbs from a nested scope to a
root-level hit. Segment and namespace literals: scope is the node AAAA
under the root, which also holds FOO with trailing underscore at root
level. -/
theorem resolve_upward_search_iff_single_seg_witness :
    resolve_name_string [[[65, 65, 65, 65]], [[70, 79, 79, 95]]]
        [[65, 65, 65, 65]] .failIfDoesntExist
        (0x5C :: [66, 66, 66, 66]) =
      resolve_name_string_noclimb [[[65, 65, 65, 65]], [[70, 79, 79, 95]]]
        [[65, 65, 65, 65]] .failIfDoesntExist (0x5C :: [66, 66, 66, 66]) ∧
    resolve_name_string [[[65, 65, 65, 65]], [[70, 79, 79, 95]]]
        [[65, 65, 65, 65]] .failIfDoesntExist [70, 79, 79, 95] =
      ⟨.ok, some [[70, 79, 79, 95]], some 4⟩ := by
  constructor
  · exact resolve_upward_search_iff_single_seg.1
      [[[65, 65, 65, 65]], [[70, 79, 79, 95]]] [[65, 65, 65, 65]]
      0x5C [66, 66, 66, 66] (Or.inl rfl)
  · have h := resolve_upward_search_iff_single_seg.2
      [[[65, 65, 65, 65]], [[70, 79, 79, 95]]] [[65, 65, 65, 65]]
      70 [79, 79, 95] (by decide)
    rw [h]
    have hp : parse_nameseg (70 :: [79, 79, 95]) = .ok [70, 79, 79, 95] := rfl
    have hs : spec_upward_lookup [[[65, 65, 65, 65]], [[70, 79, 79, 95]]]
        [[65, 65, 65, 65]] [70, 79, 79, 95] = some [[70, 79, 79, 95]] := by
      rw [spec_upward_lookup.eq_def]
      rw [show uacpi_namespace_node_find [[[65, 65, 65, 65]], [[70, 79, 79, 95]]]
        [[65, 65, 65, 65]] [70, 79, 79, 95] = none from rfl]
      rw [if_neg (by decide)]
      rw [show ([[65, 65, 65, 65]] : Path).dropLast = [] from rfl]
      rw [spec_upward_lookup.eq_def]
      rw [show uacpi_namespace_node_find [[[65, 65, 65, 65]], [[70, 79, 79, 95]]]
        [] [70, 79, 79, 95] = some [[70, 79, 79, 95]] from rfl]
    simp only [hp, hs]

/-! ### Byte and bit access helpers for the buffer-field proofs -/

/-- Reading a byte of a set list. -/
theorem listGetD_set (l : List Nat) (i v j : Nat) :
    listGetD (l.set i v) j = if i = j ∧ i < l.length then v else listGetD l j := by
  simp only [listGetD, List.getD_eq_getElem?_getD, List.getElem?_set]
  by_cases h : i = j
  · subst h
    by_cases hl : i < l.length
    · simp [hl]
    · simp [hl, List.getElem?_eq_none (le_of_not_lt hl)]
  · simp [h]

/-- A byte read from a well-formed region is a byte. -/
theorem listGetD_lt (l : List Nat) (hwf : ∀ b ∈ l, b < 256) (i : Nat) :
    listGetD l i < 256 := by
  simp only [listGetD]
  by_cases h : i < l.length
  · rw [List.getD_eq_getElem l 0 h]
    exact hwf _ (l.getElem_mem h)
  · rw [List.getD_eq_default l 0 (by omega)]
    omega

/-- Setting a byte keeps a region well formed. -/
theorem wf_set (l : List Nat) (hwf : ∀ b ∈ l, b < 256) (i v : Nat) (hv : v < 256) :
    ∀ b ∈ l.set i v, b < 256 := by
  intro b hb
  rcases List.mem_or_eq_of_mem_set hb with h | h
  · exact hwf b h
  · omega

/-- Bit `8k + o` of a region with `o < 8` is bit `o` of byte `k`. -/
theorem bitAt_eq (l : List Nat) (k o : Nat) (ho : o < 8) :
    bitAt l (8 * k + o) = (listGetD l k).testBit o := by
  simp only [bitAt, Nat.mul_add_div (by norm_num : (0:Nat) < 8), Nat.mul_add_mod]
  rw [Nat.div_eq_of_lt ho, Nat.mod_eq_of_lt ho, Nat.add_zero]

/-- Bit `8k + o` of a region with `o < 16` lives in byte `k` or `k+1`. -/
theorem bitAt_split (l : List Nat) (k o : Nat) (ho : o < 16) :
    bitAt l (8 * k + o) =
      if o < 8 then (listGetD l k).testBit o
      else (listGetD l (k + 1)).testBit (o - 8) := by
  by_cases h : o < 8
  · rw [if_pos h, bitAt_eq l k o h]
  · rw [if_neg h]
    have h2 : 8 * k + o = 8 * (k + 1) + (o - 8) := by omega
    rw [h2, bitAt_eq l (k + 1) (o - 8) (by omega)]

/-- A byte's bits vanish at positions 8 and above. -/
theorem testBit_ge_eight (x i : Nat) (hx : x < 256) (hi : 8 ≤ i) :
    x.testBit i = false := by
  apply Nat.testBit_lt_two_pow
  calc x < 256 := hx
    _ = 2 ^ 8 := by norm_num
    _ ≤ 2 ^ i := Nat.pow_le_pow_right (by norm_num) hi

/-- The gathered source bits form a byte. -/
theorem gather_bits_lt (src : List Nat) (srcShift srcIdx srcCount : Nat)
    (hwf : ∀ b ∈ src, b < 256) :
    misaligned_gather_bits src srcShift srcIdx srcCount < 256 := by
  simp only [misaligned_gather_bits]
  by_cases h0 : srcCount ≠ 0
  · rw [if_pos h0]
    have hb0 : listGetD src srcIdx >>> srcShift < 256 := by
      rw [Nat.shiftRight_eq_div_pow]
      exact lt_of_le_of_lt (Nat.div_le_self _ _) (listGetD_lt src hwf srcIdx)
    have hb1 : (if srcShift ≠ 0 ∧ 8 - srcShift < srcCount then
        ((listGetD src srcIdx >>> srcShift) |||
          (listGetD src (srcIdx + 1) <<< (8 - srcShift))) &&& 255
      else listGetD src srcIdx >>> srcShift) < 256 := by
      split
      · exact lt_of_le_of_lt Nat.and_le_right (by norm_num)
      · exact hb0
    split
    · exact lt_of_le_of_lt Nat.and_le_left hb1
    · exact hb1
  · rw [if_neg h0]
    norm_num

/-- Bit `p` of the gathered byte is bit `p` of the source span, zero
past the span's remaining length. -/
theorem gather_bits_testBit (src : List Nat) (srcShift srcIdx srcCount : Nat)
    (hs : srcShift < 8) (hwf : ∀ b ∈ src, b < 256) (p : Nat) (hp : p < 8) :
    (misaligned_gather_bits src srcShift srcIdx srcCount).testBit p =
      (decide (p < srcCount) && bitAt src (8 * srcIdx + (srcShift + p))) := by
  have hbyte0 : bitAt src (8 * srcIdx + (srcShift + p)) =
      if srcShift + p < 8 then (listGetD src srcIdx).testBit (srcShift + p)
      else (listGetD src (srcIdx + 1)).testBit (srcShift + p - 8) :=
    bitAt_split src srcIdx (srcShift + p) (by omega)
  have h255 : (255 : Nat) = 2 ^ 8 - 1 := by norm_num
  simp only [misaligned_gather_bits]
  by_cases h0 : srcCount ≠ 0
  · rw [if_pos h0]
    by_cases hcross : srcShift ≠ 0 ∧ 8 - srcShift < srcCount
    · rw [if_pos hcross]
      have hb1 : (((listGetD src srcIdx >>> srcShift) |||
            (listGetD src (srcIdx + 1) <<< (8 - srcShift))) &&& 255).testBit p =
          (if srcShift + p < 8 then (listGetD src srcIdx).testBit (srcShift + p)
           else (listGetD src (srcIdx + 1)).testBit (srcShift + p - 8)) := by
        rw [h255]
        simp only [Nat.testBit_and, Nat.testBit_or, Nat.testBit_shiftRight,
          Nat.testBit_shiftLeft, Nat.testBit_two_pow_sub_one]
        by_cases hlow : srcShift + p < 8
        · rw [if_pos hlow]
          have hno : ¬ (8 - srcShift ≤ p) := by omega
          simp [hno, hp]
        · rw [if_neg hlow]
          have hyes : 8 - srcShift ≤ p := by omega
          have hdead : (listGetD src srcIdx).testBit (srcShift + p) = false :=
            testBit_ge_eight _ _ (listGetD_lt src hwf srcIdx) (by omega)
          have harith : p - (8 - srcShift) = srcShift + p - 8 := by omega
          simp [hyes, hp, hdead, harith]
      by_cases hc8 : srcCount < 8
      · rw [if_pos hc8]
        rw [Nat.one_shiftLeft]
        simp only [Nat.testBit_and, Nat.testBit_two_pow_sub_one, hb1, hbyte0]
        rw [Bool.and_comm]
      · rw [if_neg hc8]
        rw [hb1, hbyte0]
        have : p < srcCount := by omega
        simp [this]
    · rw [if_neg hcross]
      have hb0 : (listGetD src srcIdx >>> srcShift).testBit p =
          (listGetD src srcIdx).testBit (srcShift + p) := by
        simp [Nat.testBit_shiftRight]
      by_cases hsh : srcShift = 0
      · subst hsh
        have hlow : 0 + p < 8 := by omega
        by_cases hc8 : srcCount < 8
        · rw [if_pos hc8]
          rw [Nat.one_shiftLeft]
          simp only [Nat.testBit_and, Nat.testBit_two_pow_sub_one, hb0, hbyte0,
            if_pos hlow]
          rw [Bool.and_comm]
        · rw [if_neg hc8]
          rw [hb0, hbyte0, if_pos hlow]
          have : p < srcCount := by omega
          simp [this]
      · -- srcShift ≠ 0 and the window does not cross: srcCount ≤ 8 - srcShift < 8
        have hle : srcCount ≤ 8 - srcShift := by
          rcases not_and_or.mp hcross with h | h
          · exact absurd hsh (by simpa using h)
          · omega
        have hc8 : srcCount < 8 := by omega
        rw [if_pos hc8]
        rw [Nat.one_shiftLeft]
        simp only [Nat.testBit_and, Nat.testBit_two_pow_sub_one, hb0, hbyte0]
        by_cases hlt : p < srcCount
        · have hlow : srcShift + p < 8 := by omega
          simp [hlt, hlow]
        · simp [hlt]
  · rw [if_neg h0]
    have h00 : srcCount = 0 := by omega
    simp [h00]

/-- Bits of the unshifted C dst_mask: the low `min dstCount 8` bits. -/
theorem dst_mask_low_testBit (dstCount : Nat) : ∀ r,
    ((if dstCount < 8 then (1 <<< dstCount) - 1 else 255 : Nat)).testBit r =
      decide (r < min dstCount 8) := by
  intro r
  have hml : (if dstCount < 8 then (1 <<< dstCount) - 1 else (255 : Nat)) =
      2 ^ min dstCount 8 - 1 := by
    split
    · rw [Nat.one_shiftLeft, Nat.min_eq_left (by omega)]
    · rw [Nat.min_eq_right (by omega)]
      norm_num
  rw [hml]
  simp [Nat.testBit_two_pow_sub_one]

/-- Bit effect of the first destination-byte store of one iteration. -/
theorem write_one_first_byte_testBit (d0 bits dstShift dstCount q : Nat)
    (hq : q < 8) :
    (((d0 &&& (65535 ^^^ ((if dstCount < 8 then (1 <<< dstCount) - 1 else 255) <<< dstShift))) |||
      ((bits <<< dstShift) &&& ((if dstCount < 8 then (1 <<< dstCount) - 1 else 255) <<< dstShift))) &&& 255).testBit q =
    (if dstShift ≤ q ∧ q - dstShift < min dstCount 8
     then bits.testBit (q - dstShift) else d0.testBit q) := by
  have h255 : (255 : Nat) = 2 ^ 8 - 1 := by norm_num
  have h65535 : (65535 : Nat) = 2 ^ 16 - 1 := by norm_num
  rw [h255, h65535]
  simp only [Nat.testBit_and, Nat.testBit_or, Nat.testBit_xor, Nat.testBit_shiftLeft,
    Nat.testBit_two_pow_sub_one, dst_mask_low_testBit]
  by_cases h1 : dstShift ≤ q
  · by_cases h2 : q - dstShift < min dstCount 8
    · simp [h1, h2, hq, show q < 16 by omega, dst_mask_low_testBit]
    · simp [h1, h2, hq, show q < 16 by omega, dst_mask_low_testBit]
  · have h2 : ¬ (dstShift ≤ q ∧ q - dstShift < min dstCount 8) := by tauto
    simp [h1, h2, hq, show q < 16 by omega, dst_mask_low_testBit]

/-- Bit effect of the spill store into the following destination byte. -/
theorem write_one_spill_byte_testBit (d1 bits dstShift dstCount q : Nat)
    (hd0 : 0 < dstShift) (hd : dstShift < 8) (hq : q < 8) :
    (((d1 &&& (255 ^^^ ((((if dstCount < 8 then (1 <<< dstCount) - 1 else 255) <<< dstShift) : Nat) >>> 8))) |||
      ((bits >>> (8 - dstShift)) &&& ((((if dstCount < 8 then (1 <<< dstCount) - 1 else 255) <<< dstShift) : Nat) >>> 8))) &&& 255).testBit q =
    (if 8 + q - dstShift < min dstCount 8
     then bits.testBit (8 - dstShift + q) else d1.testBit q) := by
  have h255 : (255 : Nat) = 2 ^ 8 - 1 := by norm_num
  rw [h255]
  simp only [Nat.testBit_and, Nat.testBit_or, Nat.testBit_xor, Nat.testBit_shiftRight,
    Nat.testBit_shiftLeft, Nat.testBit_two_pow_sub_one, dst_mask_low_testBit]
  have h1 : dstShift ≤ 8 + q := by omega
  by_cases h2 : 8 + q - dstShift < min dstCount 8
  · simp [h1, h2, hq, dst_mask_low_testBit]
  · simp [h1, h2, hq, dst_mask_low_testBit]

/-- The write step preserves the region length. -/
theorem misaligned_write_one_length (dst : List Nat)
    (dstIdx dstShift dstCount bits : Nat) :
    (misaligned_write_one dst dstIdx dstShift dstCount bits).length = dst.length := by
  simp only [misaligned_write_one]
  split <;> simp

/-- The write step stores bytes. -/
theorem misaligned_write_one_wf (dst : List Nat)
    (dstIdx dstShift dstCount bits : Nat) (hwf : ∀ b ∈ dst, b < 256) :
    ∀ b ∈ misaligned_write_one dst dstIdx dstShift dstCount bits, b < 256 := by
  have hb : ∀ x : Nat, x &&& 255 < 256 :=
    fun x => lt_of_le_of_lt Nat.and_le_right (by norm_num)
  simp only [misaligned_write_one]
  split
  · exact wf_set _ (wf_set dst hwf _ _ (hb _)) _ _ (hb _)
  · exact wf_set dst hwf _ _ (hb _)

/-- Bit-level effect of one loop iteration on the destination: the
window of `min dstCount 8` bits starting at bit `8*dstIdx + dstShift`
receives the gathered byte's bits, everything else is preserved. -/
theorem misaligned_write_one_bitAt (dst : List Nat)
    (dstIdx dstShift dstCount bits : Nat)
    (hd : dstShift < 8) (hc : dstCount ≠ 0) (hwf : ∀ b ∈ dst, b < 256)
    (hin : 8 * dstIdx + dstShift + min dstCount 8 ≤ 8 * dst.length) :
    ∀ j, j < 8 * dst.length →
      bitAt (misaligned_write_one dst dstIdx dstShift dstCount bits) j =
        (if 8 * dstIdx + dstShift ≤ j ∧ j < 8 * dstIdx + dstShift + min dstCount 8
         then bits.testBit (j - (8 * dstIdx + dstShift))
         else bitAt dst j) := by
  intro j hj
  have hmin1 : 1 ≤ min dstCount 8 := by omega
  have hidx : dstIdx < dst.length := by omega
  obtain ⟨jb, jo, hjo, rfl⟩ : ∃ jb jo, jo < 8 ∧ j = 8 * jb + jo :=
    ⟨j / 8, j % 8, Nat.mod_lt _ (by norm_num), by omega⟩
  rw [bitAt_eq _ jb jo hjo, bitAt_eq _ jb jo hjo]
  simp only [misaligned_write_one]
  by_cases hg : dstShift ≠ 0 ∧ 8 - dstShift < dstCount
  · rw [if_pos hg]
    have hspill : 8 - dstShift < min dstCount 8 := by omega
    have hidx1 : dstIdx + 1 < dst.length := by omega
    rw [listGetD_set]
    by_cases hjb1 : jb = dstIdx + 1
    · subst hjb1
      rw [if_pos ⟨rfl, by simp [hidx1]⟩]
      rw [listGetD_set, if_neg (by omega)]
      rw [write_one_spill_byte_testBit _ _ _ _ _ (by omega) hd hjo]
      by_cases hw : 8 + jo - dstShift < min dstCount 8
      · rw [if_pos hw, if_pos (by constructor <;> omega)]
        congr 1
        omega
      · rw [if_neg hw, if_neg (by omega)]
    · rw [if_neg (by intro h; exact hjb1 h.1.symm)]
      rw [listGetD_set]
      by_cases hjb0 : jb = dstIdx
      · subst hjb0
        rw [if_pos ⟨rfl, hidx⟩]
        rw [write_one_first_byte_testBit _ _ _ _ _ hjo]
        by_cases hw : dstShift ≤ jo ∧ jo - dstShift < min dstCount 8
        · rw [if_pos hw, if_pos (by constructor <;> omega)]
          congr 1
          omega
        · rw [if_neg hw, if_neg (by omega)]
      · rw [if_neg (by intro h; exact hjb0 h.1.symm)]
        rw [if_neg (by omega)]
  · rw [if_neg hg]
    have hnospill : 8 * dstIdx + dstShift + min dstCount 8 ≤ 8 * (dstIdx + 1) := by
      rcases not_and_or.mp hg with h | h
      · have : dstShift = 0 := by simpa using h
        omega
      · omega
    rw [listGetD_set]
    by_cases hjb0 : jb = dstIdx
    · subst hjb0
      rw [if_pos ⟨rfl, hidx⟩]
      rw [write_one_first_byte_testBit _ _ _ _ _ hjo]
      by_cases hw : dstShift ≤ jo ∧ jo - dstShift < min dstCount 8
      · rw [if_pos hw, if_pos (by constructor <;> omega)]
        congr 1
        omega
      · rw [if_neg hw, if_neg (by omega)]
    · rw [if_neg (by intro h; exact hjb0 h.1.symm)]
      rw [if_neg (by omega)]

/-- Bit-level characterization of the whole misaligned copy loop: the
destination span `[8*dstIdx + dstShift, + dstCount)` receives the source
span bits (zero past `srcCount`), every other bit of the destination
region is preserved, lengths and well-formedness are maintained. -/
theorem misaligned_rw_spec (src : List Nat) (dstShift srcShift : Nat)
    (hds : dstShift < 8) (hss : srcShift < 8) (hwfs : ∀ b ∈ src, b < 256) :
    ∀ (dstCount : Nat) (dst : List Nat) (dstIdx srcIdx srcCount : Nat),
      (∀ b ∈ dst, b < 256) →
      (dstCount ≠ 0 → 8 * dstIdx + dstShift + dstCount ≤ 8 * dst.length) →
      (misaligned_rw src dstShift srcShift dstCount dst dstIdx srcIdx srcCount).length = dst.length ∧
      (∀ b ∈ misaligned_rw src dstShift srcShift dstCount dst dstIdx srcIdx srcCount, b < 256) ∧
      (∀ j, j < 8 * dst.length →
        bitAt (misaligned_rw src dstShift srcShift dstCount dst dstIdx srcIdx srcCount) j =
          (if 8 * dstIdx + dstShift ≤ j ∧ j < 8 * dstIdx + dstShift + dstCount
           then (decide (j - (8 * dstIdx + dstShift) < srcCount) &&
                 bitAt src (8 * srcIdx + (srcShift + (j - (8 * dstIdx + dstShift)))))
           else bitAt dst j)) := by
  intro dstCount
  induction dstCount using Nat.strong_induction_on with
  | _ dstCount ih =>
    intro dst dstIdx srcIdx srcCount hwfd hin
    by_cases h0 : dstCount = 0
    · subst h0
      have hr : misaligned_rw src dstShift srcShift 0 dst dstIdx srcIdx srcCount = dst := by
        rw [misaligned_rw.eq_def]
        simp
      rw [hr]
      exact ⟨rfl, hwfd, fun j hj => by rw [if_neg (by omega)]⟩
    · have hin2 := hin h0
      have hr : misaligned_rw src dstShift srcShift dstCount dst dstIdx srcIdx srcCount =
          misaligned_rw src dstShift srcShift (if 8 < dstCount then dstCount - 8 else 0)
            (misaligned_write_one dst dstIdx dstShift dstCount
              (misaligned_gather_bits src srcShift srcIdx srcCount))
            (dstIdx + 1) (if srcCount < 8 then srcIdx else srcIdx + 1)
            (if srcCount < 8 then 0 else srcCount - 8) := by
        rw [misaligned_rw.eq_def]
        rw [if_neg h0]
      have hlen2 : (misaligned_write_one dst dstIdx dstShift dstCount
          (misaligned_gather_bits src srcShift srcIdx srcCount)).length = dst.length :=
        misaligned_write_one_length dst dstIdx dstShift dstCount _
      have hwf2 : ∀ b ∈ misaligned_write_one dst dstIdx dstShift dstCount
          (misaligned_gather_bits src srcShift srcIdx srcCount), b < 256 :=
        misaligned_write_one_wf dst dstIdx dstShift dstCount _ hwfd
      have hbit2 := misaligned_write_one_bitAt dst dstIdx dstShift dstCount
        (misaligned_gather_bits src srcShift srcIdx srcCount) hds h0 hwfd (by omega)
      have hbitsrc := gather_bits_testBit src srcShift srcIdx srcCount hss hwfs
      have hdc : (if 8 < dstCount then dstCount - 8 else 0) = dstCount - 8 ∨
          (dstCount ≤ 8 ∧ (if 8 < dstCount then dstCount - 8 else 0) = 0) := by
        split
        · left; rfl
        · right; omega
      obtain ⟨ihlen, ihwf, ihbit⟩ := ih (if 8 < dstCount then dstCount - 8 else 0)
        (by split <;> omega)
        (misaligned_write_one dst dstIdx dstShift dstCount
          (misaligned_gather_bits src srcShift srcIdx srcCount))
        (dstIdx + 1) (if srcCount < 8 then srcIdx else srcIdx + 1)
        (if srcCount < 8 then 0 else srcCount - 8) hwf2
        (by
          intro hne
          rw [hlen2]
          rcases hdc with h | ⟨h1, h2⟩
          · rw [h] at hne ⊢
            omega
          · rw [h2] at hne
            omega)
      rw [hr]
      refine ⟨by rw [ihlen, hlen2], ihwf, ?_⟩
      intro j hj
      rw [ihbit j (by rw [hlen2]; omega)]
      by_cases hjwin : 8 * (dstIdx + 1) + dstShift ≤ j ∧
          j < 8 * (dstIdx + 1) + dstShift + (if 8 < dstCount then dstCount - 8 else 0)
      · rw [if_pos hjwin]
        have hwhole : 8 * dstIdx + dstShift ≤ j ∧ j < 8 * dstIdx + dstShift + dstCount := by
          rcases hdc with h | ⟨h1, h2⟩
          · rw [h] at hjwin
            omega
          · rw [h2] at hjwin
            omega
        rw [if_pos hwhole]
        by_cases hsc : srcCount < 8
        · rw [if_pos hsc, if_pos hsc]
          have hz1 : ¬ (j - (8 * (dstIdx + 1) + dstShift) < 0) := by omega
          have hz2 : ¬ (j - (8 * dstIdx + dstShift) < srcCount) := by omega
          simp [hz1, hz2]
        · rw [if_neg hsc, if_neg hsc]
          have he1 : decide (j - (8 * (dstIdx + 1) + dstShift) < srcCount - 8) =
              decide (j - (8 * dstIdx + dstShift) < srcCount) :=
            decide_eq_decide.mpr (by omega)
          have he2 : 8 * (srcIdx + 1) + (srcShift + (j - (8 * (dstIdx + 1) + dstShift))) =
              8 * srcIdx + (srcShift + (j - (8 * dstIdx + dstShift))) := by omega
          rw [he1, he2]
      · rw [if_neg hjwin]
        rw [hbit2 j hj]
        by_cases hwin1 : 8 * dstIdx + dstShift ≤ j ∧
            j < 8 * dstIdx + dstShift + min dstCount 8
        · rw [if_pos hwin1]
          rw [hbitsrc (j - (8 * dstIdx + dstShift)) (by omega)]
          rw [if_pos (by omega)]
        · rw [if_neg hwin1]
          rw [if_neg (by
            rcases hdc with h | ⟨h1, h2⟩
            · rw [h] at hjwin
              omega
            · rw [h2] at hjwin
              omega)]

/-- Byte view of an in-place region overwrite. -/
theorem listGetD_listOverwrite (mem region : List Nat) (off i : Nat)
    (hoff : off ≤ mem.length) :
    listGetD (listOverwrite mem off region) i =
      if off ≤ i ∧ i < off + region.length then listGetD region (i - off)
      else listGetD mem i := by
  have htl : (mem.take off).length = off := List.length_take_of_le hoff
  simp only [listOverwrite, listGetD, List.getD_eq_getElem?_getD]
  by_cases h1 : i < off
  · rw [if_neg (by omega)]
    rw [List.getElem?_append_left (by rw [List.length_append, htl]; omega)]
    rw [List.getElem?_append_left (by rw [htl]; exact h1)]
    rw [List.getElem?_take, if_pos h1]
  · by_cases h2 : i < off + region.length
    · rw [if_pos (by omega)]
      rw [List.getElem?_append_left (by rw [List.length_append, htl]; omega)]
      rw [List.getElem?_append_right (by rw [htl]; omega), htl]
    · rw [if_neg (by omega)]
      rw [List.getElem?_append_right (by rw [List.length_append, htl]; omega)]
      rw [List.getElem?_drop]
      rw [show (mem.take off ++ region).length = off + region.length from by
        rw [List.length_append, htl]]
      rw [show off + region.length + (i - (off + region.length)) = i from by omega]

/-- An overwrite inside the region keeps the region length. -/
theorem listOverwrite_length (mem region : List Nat) (off : Nat)
    (hin : off + region.length ≤ mem.length) :
    (listOverwrite mem off region).length = mem.length := by
  simp only [listOverwrite, List.length_append, List.length_take, List.length_drop]
  omega

/-- An overwrite with byte values keeps the region well formed. -/
theorem wf_listOverwrite (mem region : List Nat) (off : Nat)
    (hm : ∀ b ∈ mem, b < 256) (hr : ∀ b ∈ region, b < 256) :
    ∀ b ∈ listOverwrite mem off region, b < 256 := by
  intro b hb
  simp only [listOverwrite, List.mem_append] at hb
  rcases hb with (hb | hb) | hb
  · exact hm b (List.mem_of_mem_take hb)
  · exact hr b hb
  · exact hm b (List.mem_of_mem_drop hb)

/-- Byte view of memcpy_zerout over a whole source region. -/
theorem listGetD_zerout (src : List Nat) (d k : Nat) :
    listGetD (uacpi_memcpy_zerout src d src.length) k =
      if k < d then listGetD src k else 0 := by
  simp only [uacpi_memcpy_zerout, listGetD, List.getD_eq_getElem?_getD]
  have htl : (src.take (min d src.length)).length = min d src.length :=
    List.length_take_of_le (min_le_right _ _)
  by_cases h1 : k < min d src.length
  · rw [List.getElem?_append_left (by rw [htl]; exact h1)]
    rw [List.getElem?_take, if_pos h1, if_pos (by omega)]
  · rw [List.getElem?_append_right (by rw [htl]; omega), htl]
    by_cases h2 : k < d
    · rw [if_pos h2]
      rw [List.getElem?_replicate, if_pos (by omega)]
      have hsk : src.length ≤ k := by omega
      rw [List.getElem?_eq_none hsk]
      rfl
    · rw [if_neg h2]
      rw [List.getElem?_replicate, if_neg (by omega)]
      rfl

/-- memcpy_zerout over a whole source yields the destination size. -/
theorem zerout_length (src : List Nat) (d : Nat) :
    (uacpi_memcpy_zerout src d src.length).length = d := by
  simp only [uacpi_memcpy_zerout, List.length_append, List.length_take,
    List.length_replicate]
  omega

/-- memcpy_zerout of a well-formed source yields bytes. -/
theorem wf_zerout (src : List Nat) (d s : Nat) (hs : ∀ b ∈ src, b < 256) :
    ∀ b ∈ uacpi_memcpy_zerout src d s, b < 256 := by
  intro b hb
  simp only [uacpi_memcpy_zerout, List.mem_append] at hb
  rcases hb with hb | hb
  · exact hs b (List.mem_of_mem_take hb)
  · have := List.eq_of_mem_replicate hb
    omega

/-- Bit view of memcpy_zerout over a whole source region: within the
destination size the source bits, reading past the source as zero. -/
theorem zerout_bitAt (src : List Nat) (d p : Nat) (hp : p < 8 * d) :
    bitAt (uacpi_memcpy_zerout src d src.length) p = bitAt src p := by
  simp only [bitAt, listGetD_zerout]
  rw [if_pos (by omega)]

/-- The byte-aligned write path: every field bit receives the
corresponding source-storage bit (zero past the source), the backing
keeps its length and stays well formed. -/
theorem write_buffer_field_aligned (backing src : List Nat) (bi bl : Nat)
    (hal : bi % 8 = 0) (hbl : bl ≠ 0)
    (hin : bi / 8 + buffer_field_byte_size bl ≤ backing.length)
    (hwfb : ∀ b ∈ backing, b < 256) (hwfs : ∀ b ∈ src, b < 256) :
    (write_buffer_field backing bi bl src).length = backing.length ∧
    (∀ b ∈ write_buffer_field backing bi bl src, b < 256) ∧
    (∀ p, p < bl → bitAt (write_buffer_field backing bi bl src) (bi + p) = bitAt src p) := by
  have hcount : buffer_field_byte_size bl = (bl + 7) / 8 := rfl
  have hoff8 : 8 * (bi / 8) = bi := by omega
  have hzl : (uacpi_memcpy_zerout src (buffer_field_byte_size bl) src.length).length =
      buffer_field_byte_size bl := zerout_length _ _
  have hml : (listOverwrite backing (bi / 8)
      (uacpi_memcpy_zerout src (buffer_field_byte_size bl) src.length)).length =
      backing.length := by
    apply listOverwrite_length
    rw [hzl]
    omega
  have hmwf : ∀ b ∈ listOverwrite backing (bi / 8)
      (uacpi_memcpy_zerout src (buffer_field_byte_size bl) src.length), b < 256 :=
    wf_listOverwrite _ _ _ hwfb (wf_zerout _ _ _ hwfs)
  have hmbit : ∀ p, p < 8 * buffer_field_byte_size bl →
      bitAt (listOverwrite backing (bi / 8)
        (uacpi_memcpy_zerout src (buffer_field_byte_size bl) src.length)) (bi + p) =
      bitAt src p := by
    intro p hp
    obtain ⟨k, o, ho, rfl⟩ : ∃ k o, o < 8 ∧ p = 8 * k + o :=
      ⟨p / 8, p % 8, Nat.mod_lt _ (by norm_num), by omega⟩
    have hsplit : bi + (8 * k + o) = 8 * (bi / 8 + k) + o := by omega
    rw [hsplit, bitAt_eq _ _ _ ho, bitAt_eq _ _ _ ho]
    rw [listGetD_listOverwrite _ _ _ _ (by omega)]
    rw [hzl]
    rw [if_pos (by constructor <;> omega)]
    have hk : bi / 8 + k - bi / 8 = k := by omega
    rw [hk]
    have := listGetD_zerout src (buffer_field_byte_size bl) k
    rw [this, if_pos (by omega)]
  simp only [write_buffer_field, if_pos hal]
  by_cases hts : bl % 8 ≠ 0
  · rw [if_pos hts]
    refine ⟨by simp [hml], ?_, ?_⟩
    · apply wf_set _ hmwf
      apply Nat.or_lt_two_pow (n := 8)
      · exact listGetD_lt _ hmwf _
      · calc (listGetD backing (bi / 8 + buffer_field_byte_size bl - 1) >>> (bl % 8)) <<< (bl % 8)
            = listGetD backing (bi / 8 + buffer_field_byte_size bl - 1) >>> (bl % 8) * 2 ^ (bl % 8) := by
              rw [Nat.shiftLeft_eq]
          _ < 256 := by
              have h1 : listGetD backing (bi / 8 + buffer_field_byte_size bl - 1) < 256 :=
                listGetD_lt _ hwfb _
              have h2 : listGetD backing (bi / 8 + buffer_field_byte_size bl - 1) >>> (bl % 8) ≤
                  listGetD backing (bi / 8 + buffer_field_byte_size bl - 1) / 2 ^ (bl % 8) := by
                rw [Nat.shiftRight_eq_div_pow]
              have h3 : 2 ^ (bl % 8) ∣ 256 := by
                have : bl % 8 < 8 := by omega
                interval_cases h : bl % 8 <;> norm_num
              calc listGetD backing (bi / 8 + buffer_field_byte_size bl - 1) >>> (bl % 8) * 2 ^ (bl % 8)
                  ≤ listGetD backing (bi / 8 + buffer_field_byte_size bl - 1) / 2 ^ (bl % 8) * 2 ^ (bl % 8) := by
                    exact Nat.mul_le_mul_right _ h2
                _ ≤ listGetD backing (bi / 8 + buffer_field_byte_size bl - 1) := Nat.div_mul_le_self _ _
                _ < 256 := h1
    · intro p hpbl
      have hcnt1 : buffer_field_byte_size bl = bl / 8 + 1 := by
        simp only [buffer_field_byte_size]
        omega
      obtain ⟨k, o, ho, rfl⟩ : ∃ k o, o < 8 ∧ p = 8 * k + o :=
        ⟨p / 8, p % 8, Nat.mod_lt _ (by norm_num), by omega⟩
      have hsplit : bi + (8 * k + o) = 8 * (bi / 8 + k) + o := by omega
      rw [hsplit, bitAt_eq _ _ _ ho]
      rw [listGetD_set]
      by_cases hlastbyte : bi / 8 + buffer_field_byte_size bl - 1 = bi / 8 + k
      · rw [if_pos ⟨hlastbyte, by rw [hml]; omega⟩]
        have hk : k = bl / 8 := by omega
        have holt : o < bl % 8 := by omega
        simp only [Nat.testBit_or, Nat.testBit_shiftLeft, Nat.testBit_shiftRight]
        rw [show (decide (bl % 8 ≤ o)) = false from by simp; omega]
        simp only [Bool.false_and, Bool.or_false]
        have h2 := hmbit (8 * k + o) (by omega)
        rw [hsplit, bitAt_eq _ _ _ ho] at h2
        rw [hlastbyte]
        exact h2
      · rw [if_neg (by intro hcon; exact hlastbyte hcon.1)]
        have h2 := hmbit (8 * k + o) (by omega)
        rw [hsplit, bitAt_eq _ _ _ ho] at h2
        exact h2
  · rw [if_neg hts]
    refine ⟨hml, hmwf, ?_⟩
    intro p hpbl
    apply hmbit
    have : bl % 8 = 0 := by omega
    simp only [buffer_field_byte_size]
    omega

/-- The byte-aligned read path: the result has the field's byte size,
every bit inside the field equals the corresponding backing bit, and
the tail bits past the field length in the last byte are masked to
zero. -/
theorem do_read_buffer_field_aligned (backing : List Nat) (bi bl : Nat)
    (hal : bi % 8 = 0) (hbl : bl ≠ 0)
    (hin : bi / 8 + buffer_field_byte_size bl ≤ backing.length)
    (hwfb : ∀ b ∈ backing, b < 256) :
    (do_read_buffer_field backing bi bl).length = buffer_field_byte_size bl ∧
    (∀ b ∈ do_read_buffer_field backing bi bl, b < 256) ∧
    (∀ j, j < 8 * buffer_field_byte_size bl →
      bitAt (do_read_buffer_field backing bi bl) j =
        (decide (j < bl) && bitAt backing (bi + j))) := by
  have hcount : buffer_field_byte_size bl = (bl + 7) / 8 := rfl
  have hbytesLen : ((backing.drop (bi / 8)).take (buffer_field_byte_size bl)).length =
      buffer_field_byte_size bl := by
    rw [List.length_take, List.length_drop]
    omega
  have hbytesGetD : ∀ k, k < buffer_field_byte_size bl →
      listGetD ((backing.drop (bi / 8)).take (buffer_field_byte_size bl)) k =
        listGetD backing (bi / 8 + k) := by
    intro k hk
    simp only [listGetD, List.getD_eq_getElem?_getD]
    rw [List.getElem?_take, if_pos hk, List.getElem?_drop]
  have hbytesWf : ∀ b ∈ (backing.drop (bi / 8)).take (buffer_field_byte_size bl),
      b < 256 := by
    intro b hb
    exact hwfb b (List.mem_of_mem_drop (List.mem_of_mem_take hb))
  have hbytesBit : ∀ j, j < 8 * buffer_field_byte_size bl →
      bitAt ((backing.drop (bi / 8)).take (buffer_field_byte_size bl)) j =
        bitAt backing (bi + j) := by
    intro j hj
    obtain ⟨k, o, ho, rfl⟩ : ∃ k o, o < 8 ∧ j = 8 * k + o :=
      ⟨j / 8, j % 8, Nat.mod_lt _ (by norm_num), by omega⟩
    rw [bitAt_eq _ _ _ ho]
    rw [show bi + (8 * k + o) = 8 * (bi / 8 + k) + o from by omega]
    rw [bitAt_eq _ _ _ ho]
    rw [hbytesGetD k (by omega)]
  simp only [do_read_buffer_field, if_pos hal]
  by_cases hts : bl % 8 ≠ 0
  · rw [if_pos hts]
    have hcnt1 : buffer_field_byte_size bl = bl / 8 + 1 := by
      simp only [buffer_field_byte_size]
      omega
    refine ⟨by rw [List.length_set, hbytesLen], ?_, ?_⟩
    · apply wf_set _ hbytesWf
      calc listGetD ((backing.drop (bi / 8)).take (buffer_field_byte_size bl))
            (buffer_field_byte_size bl - 1) &&& ((1 <<< (bl % 8)) - 1)
          ≤ listGetD ((backing.drop (bi / 8)).take (buffer_field_byte_size bl))
            (buffer_field_byte_size bl - 1) := Nat.and_le_left
        _ < 256 := listGetD_lt _ hbytesWf _
    · intro j hj
      obtain ⟨k, o, ho, rfl⟩ : ∃ k o, o < 8 ∧ j = 8 * k + o :=
        ⟨j / 8, j % 8, Nat.mod_lt _ (by norm_num), by omega⟩
      rw [bitAt_eq _ _ _ ho, listGetD_set]
      by_cases hk : buffer_field_byte_size bl - 1 = k
      · rw [if_pos ⟨hk, by rw [hbytesLen]; omega⟩]
        rw [Nat.one_shiftLeft, Nat.testBit_and, Nat.testBit_two_pow_sub_one]
        have hkval : k = bl / 8 := by omega
        have hblo : (8 * k + o < bl) = (o < bl % 8) := by
          apply propext
          constructor <;> intro <;> omega
        have hb := hbytesBit (8 * k + o) (by omega)
        rw [bitAt_eq _ _ _ ho] at hb
        rw [hk, hb]
        rw [show (decide (8 * k + o < bl)) = decide (o < bl % 8) from
          decide_eq_decide.mpr (by constructor <;> intro <;> omega)]
        exact Bool.and_comm _ _
      · rw [if_neg (by intro hcon; exact hk hcon.1)]
        have hjlt : 8 * k + o < bl := by omega
        rw [decide_eq_true hjlt, Bool.true_and]
        have hb := hbytesBit (8 * k + o) (by omega)
        rw [bitAt_eq _ _ _ ho] at hb
        exact hb
  · rw [if_neg hts]
    have hts0 : bl % 8 = 0 := by omega
    have h8c : 8 * buffer_field_byte_size bl = bl := by
      simp only [buffer_field_byte_size]
      omega
    refine ⟨hbytesLen, hbytesWf, ?_⟩
    intro j hj
    rw [hbytesBit j hj, decide_eq_true (by omega), Bool.true_and]

/-- Reading a bit past a buffer's end yields zero. -/
theorem bitAt_ge_len (l : List Nat) (j : Nat) (h : 8 * l.length ≤ j) :
    bitAt l j = false := by
  simp only [bitAt, listGetD, List.getD_eq_getElem?_getD]
  rw [List.getElem?_eq_none (by omega)]
  simp

/-- The in-source-range guard on a bit read is redundant: out-of-range
bits already read as zero. -/
theorem decide_and_bitAt (l : List Nat) (j : Nat) :
    (decide (j < l.length * 8) && bitAt l j) = bitAt l j := by
  by_cases h : j < l.length * 8
  · rw [decide_eq_true h, Bool.true_and]
  · rw [decide_eq_false h, Bool.false_and, bitAt_ge_len l j (by omega)]

/-- C4: for every buffer field over a 32-byte backing buffer with
bit_index in [0..16] and bit_length in [1..72], writing a value buffer
to the field and then reading the field back yields exactly the
written bits: the read result has the field's byte size, bit j of the
result equals bit j of the source value for j < bit_length (bits past
the source buffer reading as zero), and 0 above bit_length — through
both the byte-aligned memcpy path and the misaligned bit-span path. -/
theorem buffer_field_write_read_roundtrip
    (backing value : List Nat) (bi bl : Nat)
    (hlen : backing.length = 32) (hwfb : ∀ b ∈ backing, b < 256)
    (hwfv : ∀ b ∈ value, b < 256)
    (hbi : bi ≤ 16) (hbl1 : 1 ≤ bl) (hbl2 : bl ≤ 72) :
    (do_read_buffer_field (write_buffer_field backing bi bl value) bi bl).length =
      buffer_field_byte_size bl ∧
    ∀ j, j < 8 * buffer_field_byte_size bl →
      bitAt (do_read_buffer_field (write_buffer_field backing bi bl value) bi bl) j =
        (decide (j < bl) && bitAt value j) := by
  have hbl0 : bl ≠ 0 := by omega
  have hcount : buffer_field_byte_size bl = (bl + 7) / 8 := rfl
  by_cases hal : bi % 8 = 0
  · have hin : bi / 8 + buffer_field_byte_size bl ≤ backing.length := by
      rw [hlen, hcount]
      omega
    obtain ⟨hwlen, hwwf, hwbit⟩ :=
      write_buffer_field_aligned backing value bi bl hal hbl0 hin hwfb hwfv
    have hin2 : bi / 8 + buffer_field_byte_size bl ≤
        (write_buffer_field backing bi bl value).length := by
      rw [hwlen]
      exact hin
    obtain ⟨holen, howf, hobit⟩ :=
      do_read_buffer_field_aligned (write_buffer_field backing bi bl value) bi bl
        hal hbl0 hin2 hwwf
    refine ⟨holen, ?_⟩
    intro j hj
    rw [hobit j hj]
    by_cases hjbl : j < bl
    · rw [hwbit j hjbl]
    · rw [decide_eq_false hjbl]
      simp
  · have hds : bi % 8 < 8 := Nat.mod_lt _ (by norm_num)
    have hweq : write_buffer_field backing bi bl value =
        misaligned_rw value (bi % 8) 0 bl backing (bi / 8) 0 (value.length * 8) := by
      simp only [write_buffer_field]
      rw [if_neg hal]
    have hreq : ∀ mem, do_read_buffer_field mem bi bl =
        misaligned_rw mem 0 (bi % 8) (buffer_field_byte_size bl * 8)
          (List.replicate (buffer_field_byte_size bl) 0) 0 (bi / 8) bl := by
      intro mem
      simp only [do_read_buffer_field]
      rw [if_neg hal]
    rw [hweq, hreq]
    obtain ⟨hwlen, hwwf, hwbit⟩ :=
      misaligned_rw_spec value (bi % 8) 0 hds (by norm_num) hwfv bl backing (bi / 8) 0
        (value.length * 8) hwfb (by intro _; rw [hlen]; omega)
    obtain ⟨holen, howf, hobit⟩ :=
      misaligned_rw_spec (misaligned_rw value (bi % 8) 0 bl backing (bi / 8) 0
          (value.length * 8)) 0 (bi % 8) (by norm_num) hds hwwf
        (buffer_field_byte_size bl * 8)
        (List.replicate (buffer_field_byte_size bl) 0) 0 (bi / 8) bl
        (by intro b hb; rw [List.eq_of_mem_replicate hb]; norm_num)
        (by intro _; rw [List.length_replicate]; omega)
    constructor
    · rw [holen, List.length_replicate]
    · intro j hj
      have hj' : j < 8 * (List.replicate (buffer_field_byte_size bl) 0).length := by
        rw [List.length_replicate]
        exact hj
      rw [hobit j hj']
      rw [if_pos ⟨by omega, by omega⟩]
      simp only [Nat.mul_zero, Nat.zero_add, Nat.sub_zero]
      by_cases hjbl : j < bl
      · rw [decide_eq_true hjbl, Bool.true_and, Bool.true_and]
        have hb := hwbit (bi + j) (by rw [hlen]; omega)
        rw [show 8 * (bi / 8) + (bi % 8 + j) = bi + j from by omega, hb]
        rw [if_pos ⟨by omega, by omega⟩]
        rw [show bi + j - (8 * (bi / 8) + bi % 8) = j from by omega]
        simp only [Nat.mul_zero, Nat.zero_add]
        exact decide_and_bitAt value j
      · rw [decide_eq_false hjbl, Bool.false_and, Bool.false_and]

/-- Witness for C4 at a misaligned concrete instance: a zeroed 32-byte
backing, bit_index 4, bit_length 12, source bytes [0xBC, 0x0A]. -/
theorem buffer_field_write_read_roundtrip_witness :
    (List.replicate 32 0).length = 32 ∧
    (∀ b ∈ List.replicate 32 0, b < 256) ∧
    (∀ b ∈ [188, 10], b < 256) ∧
    ((do_read_buffer_field
        (write_buffer_field (List.replicate 32 0) 4 12 [188, 10]) 4 12).length =
      buffer_field_byte_size 12 ∧
     ∀ j, j < 8 * buffer_field_byte_size 12 →
       bitAt (do_read_buffer_field
         (write_buffer_field (List.replicate 32 0) 4 12 [188, 10]) 4 12) j =
         (decide (j < 12) && bitAt [188, 10] j)) :=
  ⟨by decide, by decide, by decide,
   buffer_field_write_read_roundtrip (List.replicate 32 0) [188, 10] 4 12
     (by decide) (by decide) (by decide) (by decide) (by decide) (by decide)⟩

end UAcpiProof
